import Mathlib

/-!
# Verification of the woom orchestration engine

Shallow embedding of the orchestration core of the `woom` workflow manager
(`src/woom/job.py`, `src/woom/iters.py`, `src/woom/tasks.py`,
`src/woom/workflow.py`) together with proofs of the behavioural claims about
it.  Pure functions of the Python source become Lean functions; the stateful
`Workflow.run` control loop becomes an explicit fold that threads the fresh
job-id counter and records the performed actions as an event trace; fallible
code returns `Except`.

Where code of the repository is referenced but missing from the checkout
(the enriched `JobStatus` enumeration with its predicates, and
`woom.util.pages2ints` — both used by `workflow.py`, `iters.py` and the test
suite but absent from the stale `job.py`/`util.py` files), a definition
modelled from the specification is used and clearly marked as such.
-/

namespace Woom

/-! ## JobStatus, as found in `src/woom/job.py` (lines 26-33)

The enumeration actually present in the source file.  It has seven members;
`UNKOWN` (sic) carries value -1 and `FINISHED` value 0, and the class defines
no `is_running`/`is_not_running`/`is_unknown` predicate. -/

/-- The `JobStatus` enum exactly as written in `src/woom/job.py`. -/
inductive JobStatus where
  | UNKOWN
  | FINISHED
  | PENDING
  | RUNNING
  | INQUEUE
  | EXITING
  | COMPLETING
  deriving DecidableEq, Repr

/-- Numeric value of each `JobStatus` member, as assigned in
`src/woom/job.py` lines 26-33. -/
def JobStatus.val : JobStatus → Int
  | .UNKOWN => -1
  | .FINISHED => 0
  | .PENDING => 1
  | .RUNNING => 2
  | .INQUEUE => 3
  | .EXITING => 4
  | .COMPLETING => 5

/-! ## JobStatusM: the enriched status enumeration

`workflow.py` looks up `JobStatus["NOTSUBMITTED"]`, `JobStatus["FAILED"]`,
`JobStatus["ERROR"]`, `JobStatus["SUCCESS"]`, `JobStatus.UNKNOWN` and calls
`status.is_running()`; `src/tests/test_job.py` asserts
`JobStatus.FAILED.value == -6`, `JobStatus.SUCCESS.value == -4`,
`JobStatus.RUNNING.value == 2` and exercises `is_running`, `is_not_running`,
`is_unknown`, `is_killed`.  None of this exists in the checked-in `job.py`. -/

/-- Modelled from the spec: the enriched `JobStatus` enumeration used by
`Workflow.run`/`get_task_status` and pinned by `src/tests/test_job.py`, which
is missing from the stale `src/woom/job.py`.  Negative values are
terminal/non-running (`FAILED`, `ERROR`, `SUCCESS`, `KILLED`, `NOTSUBMITTED`,
`FINISHED`), zero is `UNKNOWN`, positive values are in-progress (`PENDING`,
`RUNNING`, `INQUEUE`, `EXITING`, `COMPLETING`); the tests fix `FAILED = -6`,
`SUCCESS = -4`, `RUNNING = 2`. -/
inductive JobStatusM where
  | FAILED
  | ERROR
  | SUCCESS
  | KILLED
  | NOTSUBMITTED
  | FINISHED
  | UNKNOWN
  | PENDING
  | RUNNING
  | INQUEUE
  | EXITING
  | COMPLETING
  deriving DecidableEq, Repr

/-- Modelled from the spec: numeric values of the enriched enumeration
(`FAILED = -6`, `SUCCESS = -4`, `RUNNING = 2` are pinned by
`src/tests/test_job.py`; the remaining members follow the sign convention of
the spec in declaration order). -/
def JobStatusM.val : JobStatusM → Int
  | .FAILED => -6
  | .ERROR => -5
  | .SUCCESS => -4
  | .KILLED => -3
  | .NOTSUBMITTED => -2
  | .FINISHED => -1
  | .UNKNOWN => 0
  | .PENDING => 1
  | .RUNNING => 2
  | .INQUEUE => 3
  | .EXITING => 4
  | .COMPLETING => 5

/-- Modelled from the spec: `JobStatus.is_running()` — positive value. -/
def JobStatusM.is_running (s : JobStatusM) : Bool := 0 < s.val

/-- Modelled from the spec: `JobStatus.is_not_running()` — negative value. -/
def JobStatusM.is_not_running (s : JobStatusM) : Bool := s.val < 0

/-- Modelled from the spec: `JobStatus.is_unknown()` — zero value. -/
def JobStatusM.is_unknown (s : JobStatusM) : Bool := s.val = 0

/-- The Python `.name` attribute of an enum member: its declaration name. -/
def JobStatusM.name : JobStatusM → String
  | .FAILED => "FAILED"
  | .ERROR => "ERROR"
  | .SUCCESS => "SUCCESS"
  | .KILLED => "KILLED"
  | .NOTSUBMITTED => "NOTSUBMITTED"
  | .FINISHED => "FINISHED"
  | .UNKNOWN => "UNKNOWN"
  | .PENDING => "PENDING"
  | .RUNNING => "RUNNING"
  | .INQUEUE => "INQUEUE"
  | .EXITING => "EXITING"
  | .COMPLETING => "COMPLETING"

/-! ## Cycles — `src/woom/iters.py`

Dates are abstracted as integers (timestamps); `pandas.date_range` becomes
the three boundary generators below.  The mutual `prev`/`next` object
references of the Python `Cycle` are represented as indices into the
returned list. -/

/-- One time cycle (`woom.iters.Cycle`).  `prev`/`next` hold the index of the
neighbouring cycle in the generated list (`None` in Python becomes `none`). -/
structure Cycle where
  begin_date : Int
  end_date : Option Int
  is_interval : Bool
  is_first : Bool
  is_last : Bool
  prev : Option Nat
  next : Option Nat
  deriving DecidableEq, Repr

/-- `Cycle.__init__`: `is_interval` is true iff an end date is given;
`is_first`, `is_last` start false and `prev`/`next` start as `None`. -/
def Cycle.init (b : Int) (e : Option Int) : Cycle :=
  ⟨b, e, e.isSome, false, false, none, none⟩

/-- `pandas.date_range(start, end, periods == n)`: `n` evenly spaced
boundaries from `b` to `e` (integer arithmetic stands in for timestamp
interpolation; only the length matters to the claims). -/
def dateRangePeriods (b e : Int) (n : Nat) : List Int :=
  (List.range n).map (fun i => b + (e - b) * i / (n - 1))

/-- `pandas.date_range(start, end, freq == f)` for a positive step `f`:
`b, b+f, ...` up to `e` inclusive; empty when `e < b`. -/
def dateRangeFreq (b e : Int) (f : Int) : List Int :=
  if e < b then []
  else (List.range ((e - b).toNat / f.toNat + 1)).map (fun k => b + f * k)

/-- `pandas.date_range(start, periods == n, freq == f)`. -/
def dateRangePeriodsFreq (b : Int) (n : Nat) (f : Int) : List Int :=
  (List.range n).map (fun k => b + f * k)

/-- The boundary list computed by `gen_cycles` before cycles are built
(`src/woom/iters.py` lines 139-165; Python truthiness makes `ncycles == 0`
and `ncycles is None` equivalent, hence the `getD 0` tests). -/
def genCyclesRundates (b : Int) (end_date : Option Int) (freq : Option Int)
    (ncycles : Option Nat) : List Int :=
  match end_date with
  | some e =>
    if ncycles.getD 0 ≠ 0 then dateRangePeriods b e (ncycles.getD 0 + 1)
    else
      match freq with
      | some f => dateRangeFreq b e f
      | none => [b, e]
  | none =>
    match freq with
    | some f =>
      if ncycles.getD 0 ≠ 0 then dateRangePeriodsFreq b (ncycles.getD 0 + 1) f
      else [b]
    | none => [b]

/-- The link/flag wiring at the end of `gen_cycles`
(`src/woom/iters.py` lines 186-192): `cycles[0].is_first = True`,
`cycles[-1].is_last = True`, `prev` for every index except 0, `next` for
every index except the last. -/
def wireCycles (cs : List Cycle) : List Cycle :=
  cs.mapIdx fun i c =>
    { c with
      is_first := if i = 0 then true else c.is_first
      is_last := if i = cs.length - 1 then true else c.is_last
      prev := if i ≠ 0 then some (i - 1) else c.prev
      next := if i ≠ cs.length - 1 then some (i + 1) else c.next }

/-- `woom.iters.gen_cycles` (the `round` argument only snaps the dates and is
omitted; it does not alter the structure of the result).  Note the early
return for a single boundary, which bypasses the flag/link wiring. -/
def genCycles (begin_date : Option Int) (end_date : Option Int)
    (freq : Option Int) (ncycles : Option Nat) (as_intervals : Bool) :
    Except String (List Cycle) :=
  match begin_date with
  | none => .error "begin_date must be None to generate cycles"
  | some b =>
    let rundates := genCyclesRundates b end_date freq ncycles
    if rundates.length = 1 then .ok [Cycle.init rundates.headI none]
    else
      let cycles :=
        if as_intervals then
          (rundates.zip rundates.tail).map (fun p => Cycle.init p.1 (some p.2))
        else rundates.map (fun d => Cycle.init d none)
      if cycles.isEmpty then .error "Unable to generate cycles with these specs"
      else .ok (wireCycles cycles)

/-! ## Ensemble — `src/woom/iters.py` -/

/-- One ensemble member (`woom.iters.Member`): 1-based `id`, the ensemble
size, and the named scalar properties set by `set_prop` (scalars abstracted
as integers). -/
structure Member where
  id : Nat
  nmembers : Nat
  props : List (String × Int)
  deriving DecidableEq, Repr

/-- `int(math.log10(nmembers)) + 1`, the zero-padding width computed in
`Member.__init__`. -/
def memberNdigits (nmembers : Nat) : Nat := Nat.log 10 nmembers + 1

/-- Python `f"{id:0{width}}"`: left-pad the decimal digits with zeros up to
`width` (no truncation when already wider). -/
def padZero (width : Nat) (s : String) : String :=
  String.mk (List.replicate (width - s.length) '0') ++ s

/-- `Member.label`: `f"member{self.id:0{self._ndigits}}"`. -/
def memberLabel (id nmembers : Nat) : String :=
  "member" ++ padZero (memberNdigits nmembers) (Nat.repr id)

/-- Python `str.split(sep)` for a single-character separator (kernel-friendly
model of the splitting used by `pages2ints` and `RE_SPLIT_COMMAS`). -/
def splitChar (sep : Char) (s : String) : List String :=
  (s.data.foldr
    (fun c acc =>
      if c = sep then [] :: acc else (c :: acc.headI) :: acc.tail)
    [[]]).map (fun l => String.mk l)

/-- Decimal parse of a digit string (model of Python `int(...)` on the
well-formed tokens a page selector contains). -/
def strToNat (s : String) : Nat :=
  s.data.foldl (fun a c => a * 10 + (c.toNat - '0'.toNat)) 0

/-- Modelled from the spec: one token of a page selector — a plain 1-based
id, or an open/closed dash-range `a-b` resolved through the 0-based slice
`range(n)[a-1:b]` back to 1-based ids. -/
def parsePageToken (tok : String) (n : Nat) : List Nat :=
  match splitChar '-' tok with
  | [a, b] =>
    let lo := if a = "" then 1 else strToNat a
    let hi := if b = "" then n else strToNat b
    (List.range' 1 n).filter (fun i => lo ≤ i ∧ i ≤ hi)
  | _ => [strToNat tok]

/-- Modelled from the spec: `woom.util.pages2ints` — absent from the stale
`src/woom/util.py` although `gen_ensemble` calls it and
`src/tests/test_util.py` tests it — resolving a comma-separated page-like
selector (ids and dash-ranges, 1-based inclusive) against `n` members. -/
def pages2ints (pages : String) (n : Nat) : List Nat :=
  (splitChar ',' pages).flatMap (fun tok => parsePageToken tok n)

/-- The `skip` resolution at the top of `gen_ensemble` (`if skip: skip =
wutil.pages2ints(skip, nmembers)`; an absent or empty selector skips
nothing). -/
def resolvedSkip (skip : Option String) (nm : Nat) : List Nat :=
  match skip with
  | some s => if s ≠ "" then pages2ints s nm else []
  | none => []

/-- The per-member property loop of `gen_ensemble`: for each supplied
iterable, fail unless its length is exactly `nm`, else record
`values[id-1]` as a named property. -/
def buildProps (id nm : Nat) : List (String × List Int) →
    Except String (List (String × Int))
  | [] => .ok []
  | (attr, values) :: rest =>
    if values.length ≠ nm then
      .error ("Ensemble iterator names '" ++ attr ++ "' must have a length of "
        ++ Nat.repr nm ++ ", not " ++ Nat.repr values.length ++ "!")
    else
      match buildProps id nm rest with
      | .error e => .error e
      | .ok ps => .ok ((attr, values.getD (id - 1) 0) :: ps)

/-- The member loop of `gen_ensemble` over the candidate ids. -/
def genMembersLoop (nm : Nat) (skipIds : List Nat)
    (iters : List (String × List Int)) : List Nat → Except String (List Member)
  | [] => .ok []
  | id :: rest =>
    if id ∈ skipIds then genMembersLoop nm skipIds iters rest
    else
      match buildProps id nm iters with
      | .error e => .error e
      | .ok ps =>
        match genMembersLoop nm skipIds iters rest with
        | .error e => .error e
        | .ok ms => .ok (⟨id, nm, ps⟩ :: ms)

/-- Whether a fallible computation failed (Python: the call raised). -/
def isError {ε α : Type} : Except ε α → Bool
  | .error _ => true
  | .ok _ => false

/-- `woom.iters.gen_ensemble`: infer `nmembers` from the iterables when
absent, resolve `skip`, then build members `1..nmembers`. -/
def genEnsemble (nmembers : Option Nat) (skip : Option String)
    (iters : List (String × List Int)) : Except String (List Member) :=
  let nm :=
    match nmembers with
    | some n => n
    | none =>
      match iters with
      | [] => 0
      | p :: rest => rest.foldl (fun acc q => min acc q.2.length) p.2.length
  genMembersLoop nm (resolvedSkip skip nm) iters (List.range' 1 nm)

/-! ## TaskTree — `src/woom/tasks.py` -/

/-- Strip leading/trailing spaces (the `\s*` halves of `RE_SPLIT_COMMAS`). -/
def trimSpaces (s : String) : String :=
  String.mk (((s.data.dropWhile (· = ' ')).reverse.dropWhile (· = ' ')).reverse)

/-- `re.compile(r"\s*,\s*").split`: split a token line on commas, trimming
the surrounding whitespace. -/
def splitCommas (s : String) : List String :=
  (splitChar ',' s).map trimSpaces

/-- Token expansion in `TaskTree.to_dict`: a token naming a known group
expands to the group's comma-separated task list, otherwise it is a
singleton group. -/
def expandToken (groups : List (String × String)) (tok : String) : List String :=
  match groups.find? (fun g => g.1 = tok) with
  | some g => splitCommas g.2
  | none => [tok]

/-- The `all_tasks` unicity check of `TaskTree.to_dict`: append each task to
the running list, failing on the first repeat. -/
def addTasks (allTasks : List String) : List String → Except String (List String)
  | [] => .ok allTasks
  | t :: rest =>
    if t ∈ allTasks then .error ("Duplicate tasks not allowed: " ++ t)
    else addTasks (allTasks ++ [t]) rest

/-- The token loop of `TaskTree.to_dict` for one sequence line. -/
def processTokens (groups : List (String × String)) (allTasks : List String) :
    List String → Except String (List (List String) × List String)
  | [] => .ok ([], allTasks)
  | tok :: rest =>
    let g := expandToken groups tok
    match addTasks allTasks g with
    | .error e => .error e
    | .ok all1 =>
      match processTokens groups all1 rest with
      | .error e => .error e
      | .ok (gs, all2) => .ok (g :: gs, all2)

/-- The sub-stage loop of `TaskTree.to_dict` for one stage. -/
def processSubstages (groups : List (String × String)) (allTasks : List String) :
    List (String × String) →
    Except String (List (String × List (List String)) × List String)
  | [] => .ok ([], allTasks)
  | (sub, line) :: rest =>
    match processTokens groups allTasks (splitCommas line) with
    | .error e => .error e
    | .ok (gs, all1) =>
      match processSubstages groups all1 rest with
      | .error e => .error e
      | .ok (ss, all2) => .ok ((sub, gs) :: ss, all2)

/-- The stage loop of `TaskTree.to_dict`. -/
def processStages (groups : List (String × String)) (allTasks : List String) :
    List (String × List (String × String)) →
    Except String (List (String × List (String × List (List String))) × List String)
  | [] => .ok ([], allTasks)
  | (stage, subs) :: rest =>
    match processSubstages groups allTasks subs with
    | .error e => .error e
    | .ok (ss, all1) =>
      match processStages groups all1 rest with
      | .error e => .error e
      | .ok (st, all2) => .ok ((stage, ss) :: st, all2)

/-- `woom.tasks.TaskTree.to_dict`: expand the stage → sub-stage token lines
against the group table into the task tree, enforcing global task-name
unicity (the `functools.cache` decorator memoizes this computation on first
use; the function itself is pure). -/
def toDict (stages : List (String × List (String × String)))
    (groups : List (String × String)) :
    Except String (List (String × List (String × List (List String)))) :=
  match processStages groups [] stages with
  | .error e => .error e
  | .ok (tt, _) => .ok tt

/-- The full expansion of the graph: every task name produced while walking
stages, sub-stages and tokens in declaration order. -/
def expandAllTasks (stages : List (String × List (String × String)))
    (groups : List (String × String)) : List String :=
  stages.flatMap (fun st =>
    st.2.flatMap (fun sub => (splitCommas sub.2).flatMap (expandToken groups)))

/-! ## Python string helpers for the scheduler command tables -/

/-- Python `":".join(parts)`. -/
def pyjoin (sep : String) : List String → String
  | [] => ""
  | [x] => x
  | x :: xs => x ++ sep ++ pyjoin sep xs

/-- Whitespace splitting, dropping empty fields (Python `str.split()`). -/
def pysplitAux : List Char → List Char → List String
  | [], acc => if acc = [] then [] else [String.mk acc.reverse]
  | c :: cs, acc =>
    if c = ' ' then
      if acc = [] then pysplitAux cs []
      else String.mk acc.reverse :: pysplitAux cs []
    else pysplitAux cs (c :: acc)

/-- Python `str.split()` (space as the only whitespace, as in the tables). -/
def pysplit (s : String) : List String := pysplitAux s.data []

/-! ## JobManager command tables — `src/woom/job.py`

An argv-fragment with a single `{}` placeholder is represented structurally
as the pair of the text before and after the placeholder, so
`fmt.format(v) = pre ++ v ++ post`. -/

/-- A fragment `pre ++ "\x7b\x7d" ++ post` of a command table. -/
structure Fragment where
  pre : String
  post : String
  deriving DecidableEq, Repr

/-- Python `fmt.format(value)` for a single-placeholder fragment. -/
def Fragment.format (f : Fragment) (v : String) : String := f.pre ++ v ++ f.post

/-- An option value passed to `get_command_args`: a scalar, a list, or
Python `None`. -/
inductive OptVal where
  | str (s : String)
  | list (l : List String)
  | null
  deriving DecidableEq, Repr

/-- `BackgroundJobManager.get_command_args` (`src/woom/job.py` lines
423-460): start from the base executable, then walk the *supplied* options
in order; an option absent from the table or carrying `None` is skipped, a
list value contributes one unsplit formatted fragment per truthy element,
and a scalar value contributes its formatted fragment split on
whitespace. -/
def getCommandArgs (command : Option String)
    (options : List (String × Fragment)) (opts : List (String × OptVal)) :
    List String :=
  (match command with | some c => [c] | none => []) ++
    opts.flatMap (fun ov =>
      match options.find? (fun kv => kv.1 = ov.1) with
      | none => []
      | some kv =>
        match ov.2 with
        | .null => []
        | .list l => (l.filter (fun v => v ≠ "")).map (fun v => kv.2.format v)
        | .str v => pysplit (kv.2.format v))

/-- `SlurmJobManager.commands["submit"]` (`src/woom/job.py` lines 771-803). -/
def slurmSubmitOptions : List (String × Fragment) :=
  [("name", ⟨"--exclusive -J ", ""⟩),
   ("queue", ⟨"-p ", ""⟩),
   ("nnodes", ⟨"-N ", ""⟩),
   ("ncpus", ⟨"-c ", ""⟩),
   ("mem", ⟨"--mem=", ""⟩),
   ("time", ⟨"--time=", ""⟩),
   ("depend", ⟨"--dependency=afterok:", ""⟩),
   ("log_out", ⟨"-o ", ""⟩),
   ("script", ⟨"", ""⟩),
   ("mail", ⟨"--mail-type=ALL --mail-user=", ""⟩)]

/-- `PbsproJobManager.commands["submit"]` (`src/woom/job.py` lines 665-693). -/
def pbsproSubmitOptions : List (String × Fragment) :=
  [("script", ⟨"", ""⟩),
   ("name", ⟨"-N ", ""⟩),
   ("queue", ⟨"-V -q ", ""⟩),
   ("time", ⟨"-l walltime=", ""⟩),
   ("memory", ⟨"-l mem=", ""⟩),
   ("log_out", ⟨"-koed -o ", ""⟩),
   ("depend", ⟨"-W depend=afterok:", ""⟩),
   ("mail", ⟨"-M ", ""⟩)]

/-- `_Scheduler_.get_submission_args` (`src/woom/job.py` lines 566-569)
followed by the parent `get_submission_args` (lines 462-480): join the
upstream job ids with `":"` into the `depend` option, add the script, and
format.  (The parent's `if "extra " in opts` check looks up the literal key
`"extra "` with a trailing space, which no caller ever produces, so that
branch is dead and omitted; callers pass neither a `depend` nor a `script`
key, matching the dict inserts modelled as appends.) -/
def schedulerSubmissionArgs (command : String)
    (options : List (String × Fragment)) (script : String)
    (opts : List (String × OptVal)) (depend : List String) : List String :=
  let opts1 := if depend ≠ [] then opts ++ [("depend", OptVal.str (pyjoin ":" depend))] else opts
  let opts2 := opts1 ++ [("script", OptVal.str script)]
  getCommandArgs (some command) options opts2

/-- Submission argv built by the Slurm backend (`sbatch ...`). -/
def slurmSubmissionArgs (script : String) (opts : List (String × OptVal))
    (depend : List String) : List String :=
  schedulerSubmissionArgs "sbatch" slurmSubmitOptions script opts depend

/-- Submission argv built by the PBS Pro backend (`qsub ...`). -/
def pbsproSubmissionArgs (script : String) (opts : List (String × OptVal))
    (depend : List String) : List String :=
  schedulerSubmissionArgs "qsub" pbsproSubmitOptions script opts depend

/-! ## Job status updates — `src/woom/job.py` lines 132-161 -/

/-- The mutable state of a `woom.job.Job` relevant to status updates. -/
structure Job where
  jobid : String
  status : JobStatus
  realqueue : Option String
  time : Option Int
  deriving DecidableEq, Repr

/-- The argument accepted by `Job.update_status`: `None` (query the
process), a `JobStatus` value, or a structured observation dict from a
backend parser. -/
inductive StatusArg where
  | noneArg
  | status (s : JobStatus)
  | dict (jobid : String) (queue : String) (status : JobStatus) (time : Option Int)
  deriving DecidableEq, Repr

/-- `Job.get_status` (`src/woom/job.py` lines 139-146): probe the process by
pid — `RUNNING` when it exists, `UNKOWN` (sic) when not — and store the
result. -/
def Job.get_status (procExists : Bool) (j : Job) : Job × JobStatus :=
  let s := if procExists then JobStatus.RUNNING else JobStatus.UNKOWN
  ({ j with status := s }, s)

/-- `Job.update_status` (`src/woom/job.py` lines 148-161): with no argument
query the process; a `JobStatus` value is assigned directly; a dict
observation updates `jobid`/`realqueue`/`status`/`time`.  The result is
re-persisted (`dump`), a side effect invisible to this state model. -/
def Job.update_status (procExists : Bool) (j : Job) : StatusArg → Job
  | .noneArg => (j.get_status procExists).1
  | .status s => { j with status := s }
  | .dict id q s t => { j with jobid := id, realqueue := some q, status := s, time := t }

/-! ## The `Workflow.run` control loop — `src/woom/workflow.py` lines 498-647

The loop walks stages × cycles × sequences × groups × tasks × members.  Per
slot it queries the status, aborts on a running conflict, applies the
update-mode skip check, cleans the slot's job files and submits.  We model
the walk as a fold that threads a fresh-job-id counter (job identity — a
Popen pid or scheduler id in Python — is abstracted as the creation index)
and records the performed `clean`/`submit` actions; abortion carries the
events performed so far.  Dry-run mode only changes how the job id is
synthesized and suppresses file removal inside `clean_task`, leaving the
recorded trace and the dependency propagation identical, so it is not a
parameter of the model. -/

/-- One (task, cycle, member) slot of the iteration domain.  For the
`prolog`/`epilog` stages the Python code reuses the stage name as the
pseudo-cycle, hence `cycle : String`. -/
structure Slot where
  task : String
  cycle : String
  member : Option Nat
  deriving DecidableEq, Repr

/-- An action performed by `Workflow.run` on a slot: `clean_task`, or a
submission (`submit_task` / `submit_task_fake`) with its dependency list of
previously created job ids. -/
inductive RunEvent where
  | clean (s : Slot)
  | submit (s : Slot) (jobid : Nat) (depend : List Nat)
  deriving DecidableEq, Repr

/-- The slot an event acts on. -/
def RunEvent.slot : RunEvent → Slot
  | .clean s => s
  | .submit s _ _ => s

/-- A Python runtime value as compared by the `is` operator: the update-mode
check compares a string (`status.name`) against an enum member
(`JobStatus.SUCCESS`). -/
inductive PyVal where
  | pstr (s : String)
  | pstatus (j : JobStatusM)
  deriving DecidableEq

/-- Python `is` on these values: an interned enum member is identical only
to itself, and a string object is never identical to an enum member —
captured by constructor disjointness. -/
def pyIs (a b : PyVal) : Bool := a = b

/-- The update-mode skip condition exactly as written at
`src/woom/workflow.py` line 587: `status.name is wjob.JobStatus.SUCCESS`. -/
def updateSkipCheck (status : JobStatusM) : Bool :=
  pyIs (.pstr status.name) (.pstatus .SUCCESS)

/-- `self.get_task_members(task_name) or [None]`: a task outside the
ensemble (or an empty member list, which is falsy) yields the single
pseudo-member `None`. -/
def membersOf (taskMembers : String → Option (List Nat)) (t : String) :
    List (Option Nat) :=
  match taskMembers t with
  | none => [none]
  | some ms => if ms = [] then [none] else ms.map some

/-- The ambient collaborators of one `Workflow.run` invocation:
`get_task_status` (as a pure oracle — the claims constrain only the statuses
it returns), the `update` flag, and `get_task_members`. -/
structure RunConfig where
  statusOf : Slot → JobStatusM
  update : Bool
  taskMembers : String → Option (List Nat)

/-- The member loop (`for member in self.get_task_members(task_name) or
[None]`): check status, abort on running, apply the update-skip check, then
clean and submit with the current `task_depend`; the produced job ids become
`task_jobs`. -/
def runMembers (cfg : RunConfig) (t c : String) (dep : List Nat) (nid : Nat) :
    List (Option Nat) → Except (List RunEvent) (Nat × List RunEvent × List Nat)
  | [] => .ok (nid, [], [])
  | m :: rest =>
    let slot : Slot := ⟨t, c, m⟩
    let status := cfg.statusOf slot
    if status.is_running then .error []
    else if cfg.update && updateSkipCheck status then
      runMembers cfg t c dep nid rest
    else
      match runMembers cfg t c dep (nid + 1) rest with
      | .ok (nid1, evs, jobs) =>
        .ok (nid1, .clean slot :: .submit slot nid dep :: evs, nid :: jobs)
      | .error evs => .error (.clean slot :: .submit slot nid dep :: evs)

/-- The task loop within one group: each task's submissions depend on the
previous task's `task_jobs`; the final `task_jobs` flow into
`sequence_jobs`.  (An empty group cannot be produced by `TaskTree.to_dict`;
there the Python code would hit an undefined `task_jobs`.) -/
def runGroupTasks (cfg : RunConfig) (c : String) (dep : List Nat) (nid : Nat) :
    List String → Except (List RunEvent) (Nat × List RunEvent × List Nat)
  | [] => .ok (nid, [], dep)
  | t :: rest =>
    match runMembers cfg t c dep nid (membersOf cfg.taskMembers t) with
    | .error evs => .error evs
    | .ok (nid1, evs, jobs) =>
      match runGroupTasks cfg c jobs nid1 rest with
      | .error evs1 => .error (evs ++ evs1)
      | .ok (nid2, evs1, out) => .ok (nid2, evs ++ evs1, out)

/-- The parallel group loop of one sequence: every group starts from the
incoming `sequence_depend`; the last jobs of each group accumulate into
`sequence_jobs`. -/
def runGroups (cfg : RunConfig) (c : String) (seqDep : List Nat) (nid : Nat) :
    List (List String) → Except (List RunEvent) (Nat × List RunEvent × List Nat)
  | [] => .ok (nid, [], [])
  | g :: rest =>
    match runGroupTasks cfg c seqDep nid g with
    | .error evs => .error evs
    | .ok (nid1, evs, lastJobs) =>
      match runGroups cfg c seqDep nid1 rest with
      | .error evs1 => .error (evs ++ evs1)
      | .ok (nid2, evs1, sj) => .ok (nid2, evs ++ evs1, lastJobs ++ sj)

/-- The sequence loop of one stage iteration: a sequence with no groups is
skipped (the source's `if not groups` guard — its `self.debug` call would
raise in practice but the case is unreachable for trees coming from
`TaskTree.to_dict`); otherwise `sequence_depend` becomes the finished
sequence's `sequence_jobs`. -/
def runSequences (cfg : RunConfig) (c : String) (seqDep : List Nat) (nid : Nat) :
    List (String × List (List String)) →
    Except (List RunEvent) (Nat × List RunEvent × List Nat)
  | [] => .ok (nid, [], seqDep)
  | sq :: rest =>
    if sq.2 = [] then runSequences cfg c seqDep nid rest
    else
      match runGroups cfg c seqDep nid sq.2 with
      | .error evs => .error evs
      | .ok (nid1, evs, seqJobs) =>
        match runSequences cfg c seqJobs nid1 rest with
        | .error evs1 => .error (evs ++ evs1)
        | .ok (nid2, evs1, out) => .ok (nid2, evs ++ evs1, out)

/-- The cycle loop of one stage (`for i, cycle in enumerate(cycles)`): with
independent cycles `sequence_depend` is reset to the stage baseline at each
cycle and `stage_jobs` accumulates every cycle's `sequence_jobs`; with
dependent cycles `sequence_depend` carries over and `stage_jobs` is
overwritten, keeping only the last cycle's jobs. -/
def runCyclesLoop (cfg : RunConfig) (isCycles indep : Bool)
    (seqs : List (String × List (List String))) (stageDep : List Nat)
    (seqDep : List Nat) (stageJobs : List Nat) (nid : Nat) :
    List String → Except (List RunEvent) (Nat × List RunEvent × List Nat)
  | [] => .ok (nid, [], stageJobs)
  | c :: rest =>
    let seqDep1 := if isCycles && indep then stageDep else seqDep
    match runSequences cfg c seqDep1 nid seqs with
    | .error evs => .error evs
    | .ok (nid1, evs, seqDep2) =>
      let stageJobs1 := if isCycles && indep then stageJobs ++ seqDep2 else seqDep2
      match runCyclesLoop cfg isCycles indep seqs stageDep seqDep2 stageJobs1 nid1 rest with
      | .error evs1 => .error (evs ++ evs1)
      | .ok (nid2, evs1, out) => .ok (nid2, evs ++ evs1, out)

/-- The stage loop of `Workflow.run`: a stage with no sequences is skipped;
the `cycles` stage iterates the generated cycles while `prolog`/`epilog`
run a single pseudo-iteration named after the stage; the finishing stage's
jobs become `stage_depend` (and the next stage's initial
`sequence_depend`). -/
def runStages (cfg : RunConfig) (cyclesList : List String) (indep : Bool)
    (stageDep : List Nat) (nid : Nat) :
    List (String × List (String × List (List String))) →
    Except (List RunEvent) (Nat × List RunEvent)
  | [] => .ok (nid, [])
  | st :: rest =>
    if st.2 = [] then runStages cfg cyclesList indep stageDep nid rest
    else
      let isCycles := st.1 == "cycles"
      let cycles := if isCycles then cyclesList else [st.1]
      match runCyclesLoop cfg isCycles indep st.2 stageDep stageDep [] nid cycles with
      | .error evs => .error evs
      | .ok (nid1, evs, stageJobs) =>
        match runStages cfg cyclesList indep stageJobs nid1 rest with
        | .error evs1 => .error (evs ++ evs1)
        | .ok (nid2, evs1) => .ok (nid2, evs ++ evs1)

/-- Outcome of one `Workflow.run`: the trace of performed actions and
whether the run aborted with a `WorkFlowError`. -/
structure RunResult where
  events : List RunEvent
  aborted : Bool
  deriving DecidableEq, Repr

/-- `Workflow.run`: walk all stages starting with empty dependencies and a
fresh id counter. -/
def workflowRun (cfg : RunConfig)
    (stages : List (String × List (String × List (List String))))
    (cyclesList : List String) (indep : Bool) : RunResult :=
  match runStages cfg cyclesList indep [] 0 stages with
  | .ok (_, evs) => ⟨evs, false⟩
  | .error evs => ⟨evs, true⟩

/-! Slot enumeration (`Workflow.__iter__`, `src/woom/workflow.py` lines
681-699), level by level; the nest of `flatMap`s transcribes the nested
`for` loops and their emptiness guards. -/

/-- Slots visited for one task (its members, or the pseudo-member). -/
def memberSlots (taskMembers : String → Option (List Nat)) (t c : String) :
    List Slot :=
  (membersOf taskMembers t).map (fun m => ⟨t, c, m⟩)

/-- Slots visited for one group. -/
def groupSlots (taskMembers : String → Option (List Nat)) (c : String)
    (g : List String) : List Slot :=
  g.flatMap (fun t => memberSlots taskMembers t c)

/-- Slots visited for the groups of one sequence. -/
def groupsSlots (taskMembers : String → Option (List Nat)) (c : String)
    (gs : List (List String)) : List Slot :=
  gs.flatMap (groupSlots taskMembers c)

/-- Slots visited in one stage iteration (sequences with no groups are
skipped). -/
def seqsSlots (taskMembers : String → Option (List Nat)) (c : String)
    (seqs : List (String × List (List String))) : List Slot :=
  seqs.flatMap (fun sq => if sq.2 = [] then [] else groupsSlots taskMembers c sq.2)

/-- Slots visited across the cycle iterations of one stage. -/
def cyclesSlots (taskMembers : String → Option (List Nat))
    (seqs : List (String × List (List String))) (cycles : List String) :
    List Slot :=
  cycles.flatMap (fun c => seqsSlots taskMembers c seqs)

/-- `Workflow.__iter__`: the (task, cycle, member) triples in visitation
order, with the same stage/sequence guards as `run`. -/
def workflowIter (taskMembers : String → Option (List Nat))
    (stages : List (String × List (String × List (List String))))
    (cyclesList : List String) : List Slot :=
  stages.flatMap (fun st =>
    if st.2 = [] then []
    else cyclesSlots taskMembers st.2
      (if st.1 == "cycles" then cyclesList else [st.1]))

/-! Observables of a run trace used by the dependency-propagation claims. -/

/-- Job ids of the submit events whose slot satisfies `p`, in trace order. -/
def submitIdsBy (p : Slot → Bool) (evs : List RunEvent) : List Nat :=
  evs.filterMap (fun e =>
    match e with
    | .submit s id _ => if p s then some id else none
    | .clean _ => none)

/-- The first task of every group of the first sequence — the tasks whose
submissions open a cycle iteration. -/
def firstGroupTasks (seqs : List (String × List (List String))) : List String :=
  match seqs with
  | [] => []
  | sq :: _ => sq.2.filterMap List.head?

/-- The last task of every group of the last sequence — the tasks whose jobs
a cycle iteration hands to its successor. -/
def lastGroupTasks (seqs : List (String × List (List String))) : List String :=
  match seqs.getLast? with
  | none => []
  | some sq => sq.2.filterMap List.getLast?

/-- The job ids of cycle `c`'s final submissions in a trace: submit events
on cycle `c` for a last-of-group task of the final sequence. -/
def cycleFinalJobIds (seqs : List (String × List (List String))) (c : String)
    (evs : List RunEvent) : List Nat :=
  submitIdsBy (fun s => s.cycle == c && decide (s.task ∈ lastGroupTasks seqs)) evs

/-- Every sequence has at least one group and every group at least one task
(always true for trees produced by `TaskTree.to_dict`). -/
def SeqsWellformed (seqs : List (String × List (List String))) : Prop :=
  ∀ sq ∈ seqs, sq.2 ≠ [] ∧ ∀ g ∈ sq.2, g ≠ []

/-- All task names of a sequence list, in declaration order. -/
def seqsTasks (seqs : List (String × List (List String))) : List String :=
  seqs.flatMap (fun sq => sq.2.flatMap id)

/-- Events produced by one task's member loop under conflict-free statuses:
a clean followed by a submit per member, with consecutive fresh ids and the
common dependency list. -/
def membersEvs (t c : String) (dep : List Nat) (nid : Nat) :
    List (Option Nat) → List RunEvent
  | [] => []
  | m :: rest =>
    .clean ⟨t, c, m⟩ :: .submit ⟨t, c, m⟩ nid dep :: membersEvs t c dep (nid + 1) rest

/-- Invariant of a completed sub-walk of `Workflow.run`: no visited slot had
a running status, and every recorded event acts on a visited slot. -/
def OkInv (running : Slot → Bool) (slots : List Slot) (evs : List RunEvent) : Prop :=
  (∀ s ∈ slots, running s = false) ∧ ∀ e ∈ evs, RunEvent.slot e ∈ slots

/-- Invariant of an aborted sub-walk: the visited slots split into a clean
prefix, the first conflicting (running) slot, and an unvisited remainder;
all recorded events act on the clean prefix. -/
def ErrInv (running : Slot → Bool) (slots : List Slot) (evs : List RunEvent) : Prop :=
  ∃ pre conf post, slots = pre ++ conf :: post ∧ running conf = true ∧
    (∀ s ∈ pre, running s = false) ∧ ∀ e ∈ evs, RunEvent.slot e ∈ pre

/-- Concrete run configuration exercising the run model: every slot reports
`NOTSUBMITTED`, update mode off, no ensemble members. -/
def c2cfg : RunConfig := ⟨fun _ => JobStatusM.NOTSUBMITTED, false, fun _ => none⟩

/-- Concrete prolog stage: one sequence with one group holding task `A`. -/
def c2P : List (String × List (List String)) := [("sp", [["A"]])]

/-- Concrete cycles stage: one sequence with one group holding task `B`. -/
def c2S : List (String × List (List String)) := [("sc", [["B"]])]

/-- Concrete epilog stage: one sequence with one group holding task `C`. -/
def c2E : List (String × List (List String)) := [("se", [["C"]])]

/-- Two concrete cycle labels. -/
def c2cs : List String := ["c1", "c2"]

/-- Forget the tree component of a `TaskTree.to_dict` loop result, keeping
only the running `all_tasks` list or the error. -/
def exAll {α : Type} : Except String (α × List String) → Except String (List String)
  | .error e => .error e
  | .ok r => .ok r.2

end Woom

/-! ## Theorems -/

namespace Woom

/-- C1 (code_bug evidence): in the `JobStatus` enum as checked in at
`src/woom/job.py` lines 26-33, `FINISHED` has value `0` (the claim requires
it negative), `UNKOWN` (sic) has value `-1` (the claim requires the unknown
kind to be the unique zero member), and the member whose value is zero is
exactly `FINISHED`. -/
theorem jobstatus_src_violates_sign_convention :
    JobStatus.FINISHED.val = 0 ∧ JobStatus.UNKOWN.val = -1 ∧
      ∀ s : JobStatus, s.val = 0 ↔ s = .FINISHED := by
  refine ⟨rfl, rfl, ?_⟩
  intro s
  cases s <;> simp [JobStatus.val]

/-- The enriched (spec-modelled, test-pinned) enumeration does satisfy the
claimed sign convention: `val > 0 ↔ is_running`, `val < 0 ↔ is_not_running`,
`val = 0 ↔ is_unknown`, with the claimed membership of each sign class. -/
theorem jobstatusM_sign_convention :
    (∀ s : JobStatusM, (0 < s.val ↔ s.is_running) ∧
      (s.val < 0 ↔ s.is_not_running) ∧ (s.val = 0 ↔ s.is_unknown)) ∧
    (∀ s : JobStatusM, s.is_not_running ↔
      s = .FAILED ∨ s = .ERROR ∨ s = .SUCCESS ∨ s = .KILLED ∨
        s = .NOTSUBMITTED ∨ s = .FINISHED) ∧
    (∀ s : JobStatusM, s.is_unknown ↔ s = .UNKNOWN) ∧
    (∀ s : JobStatusM, s.is_running ↔
      s = .PENDING ∨ s = .RUNNING ∨ s = .INQUEUE ∨ s = .EXITING ∨
        s = .COMPLETING) := by
  refine ⟨?_, ?_, ?_, ?_⟩ <;> intro s <;> cases s <;>
    simp [JobStatusM.val, JobStatusM.is_running, JobStatusM.is_not_running,
      JobStatusM.is_unknown]

/-- C3 (code_bug evidence): `gen_cycles` with only a begin date takes the
single-boundary early return (`src/woom/iters.py` line 169), which bypasses
the flag/link wiring, so the unique returned `Cycle` has `is_first = False`
and `is_last = False` — contradicting the claim and the function's own
docstring ("The first cycle has the `Cycle.is_first` attribute set to True.
The last cycle has the `Cycle.is_last` attribute set to True."). -/
theorem gen_cycles_single_date_unflagged :
    genCycles (some 0) none none none true =
      .ok [{ begin_date := 0, end_date := none, is_interval := false,
             is_first := false, is_last := false, prev := none, next := none }]
      := rfl

/-- Helper: when some supplied iterable has the wrong length, the property
loop of `gen_ensemble` fails. -/
theorem buildProps_isError (id nm : Nat) (iters : List (String × List Int))
    (h : ∃ p ∈ iters, p.2.length ≠ nm) : isError (buildProps id nm iters) = true := by
  induction iters with
  | nil =>
    obtain ⟨p, hp, _⟩ := h
    exact absurd hp (by simp)
  | cons hd tl ih =>
    obtain ⟨p, hp, hlen⟩ := h
    obtain ⟨hd1, hd2⟩ := hd
    rw [buildProps]
    by_cases hhd : hd2.length ≠ nm
    · rw [if_pos hhd]
      rfl
    · have hp' : p ∈ tl := by
        rcases List.mem_cons.mp hp with h1 | h1
        · exact absurd hlen (by simp [h1, not_not.mp hhd])
        · exact h1
      have herr := ih ⟨p, hp', hlen⟩
      rw [if_neg hhd]
      revert herr
      cases buildProps id nm tl <;> simp [isError]

/-- Helper: the member loop of `gen_ensemble` fails as soon as one candidate
id is not skipped and some iterable is mismatched. -/
theorem genMembersLoop_isError (nm : Nat) (skipIds : List Nat)
    (iters : List (String × List Int)) (ids : List Nat)
    (hid : ∃ i ∈ ids, i ∉ skipIds) (hit : ∃ p ∈ iters, p.2.length ≠ nm) :
    isError (genMembersLoop nm skipIds iters ids) = true := by
  induction ids with
  | nil =>
    obtain ⟨i, hi, _⟩ := hid
    exact absurd hi (by simp)
  | cons hd tl ih =>
    obtain ⟨i, hi, hskip⟩ := hid
    rw [genMembersLoop]
    by_cases hhd : hd ∈ skipIds
    · simp only [hhd, if_true]
      have hi' : i ∈ tl := by
        rcases List.mem_cons.mp hi with h1 | h1
        · exact absurd hhd (h1 ▸ hskip)
        · exact h1
      exact ih ⟨i, hi', hskip⟩
    · simp only [hhd, if_false]
      have := buildProps_isError hd nm iters hit
      revert this
      cases buildProps hd nm iters <;> simp [isError]

/-- C7 (amended): `gen_ensemble(5)` yields members `1..5` in order;
`gen_ensemble(10, skip="3,5,7")` yields exactly 7 members with none of the
skipped ids; and a mismatched iterable length makes generation fail
*provided at least one member id is actually generated* (some id in
`1..nmembers` is not skipped) — with no generated member (e.g.
`nmembers = 0`) the mismatch goes undetected and an empty list is
returned. -/
theorem gen_ensemble_behaviour :
    genEnsemble (some 5) none [] =
      .ok [⟨1, 5, []⟩, ⟨2, 5, []⟩, ⟨3, 5, []⟩, ⟨4, 5, []⟩, ⟨5, 5, []⟩] ∧
    (genEnsemble (some 10) (some "3,5,7") [] =
        .ok ([1, 2, 4, 6, 8, 9, 10].map (fun i => ⟨i, 10, []⟩)) ∧
      ([1, 2, 4, 6, 8, 9, 10].map (fun i => (⟨i, 10, []⟩ : Member))).length = 7 ∧
      (([1, 2, 4, 6, 8, 9, 10].map (fun i => (⟨i, 10, []⟩ : Member))).all
        (fun m => m.id ≠ 3 ∧ m.id ≠ 5 ∧ m.id ≠ 7)) = true) ∧
    ∀ (nm : Nat) (skip : Option String) (iters : List (String × List Int)),
      (∃ i ∈ List.range' 1 nm, i ∉ resolvedSkip skip nm) →
      (∃ p ∈ iters, p.2.length ≠ nm) →
      isError (genEnsemble (some nm) skip iters) = true := by
  refine ⟨rfl, ⟨rfl, by decide, by decide⟩, ?_⟩
  intro nm skip iters hid hit
  exact genMembersLoop_isError nm (resolvedSkip skip nm) iters _ hid hit

/-- C7 witness: the mismatch branch fires on a concrete input. -/
theorem gen_ensemble_behaviour_witness :
    isError (genEnsemble (some 3) none [("t", [20, 21])]) = true :=
  gen_ensemble_behaviour.2.2 3 none [("t", [20, 21])]
    ⟨1, by decide, by decide⟩ ⟨("t", [20, 21]), by decide, by decide⟩

/-- C7 (counterexample to the claim as stated): with `nmembers = 0` and a
supplied iterable of length 1 ≠ 0, `gen_ensemble` does *not* raise — it
returns the empty member list, because the length check only runs for
generated members. -/
theorem gen_ensemble_mismatch_unchecked :
    genEnsemble (some 0) none [("x", [7])] = .ok [] := rfl

/-- `int(math.log10 n) + 1` is ten-adic digit length. -/
theorem memberNdigits_eq_digit_count (n : Nat) (hn : n ≠ 0) :
    memberNdigits n = (Nat.digits 10 n).length := by
  rw [memberNdigits, Nat.digits_len 10 n (by norm_num) hn]

/-- C10: for `1 ≤ id ≤ nmembers`, `Member.label` is `"member"` followed by
the id zero-padded to exactly the number of decimal digits of `nmembers`
(`floor(log10 nmembers) + 1`); the width tracks `nmembers`, so
`nmembers = 5` gives `member5` while `nmembers = 100` gives `member005`. -/
theorem member_label_pad_width :
    (∀ id n : Nat, 1 ≤ id → id ≤ n →
      memberLabel id n =
        "member" ++ padZero (Nat.digits 10 n).length (Nat.repr id)) ∧
    memberLabel 5 5 = "member5" ∧ memberLabel 5 100 = "member005" := by
  refine ⟨?_, ?_, ?_⟩
  · intro id n h1 h2
    rw [memberLabel, memberNdigits_eq_digit_count n (by omega)]
  · have h5 : Nat.log 10 5 = 0 :=
      Nat.log_eq_of_pow_le_of_lt_pow (by norm_num) (by norm_num)
    rw [memberLabel, memberNdigits, h5]
    decide
  · have h100 : Nat.log 10 100 = 2 :=
      Nat.log_eq_of_pow_le_of_lt_pow (by norm_num) (by norm_num)
    rw [memberLabel, memberNdigits, h100]
    decide

/-- C10 witness: the padding law applied at `id = 5`, `nmembers = 100`. -/
theorem member_label_pad_width_witness :
    (1 ≤ 5 ∧ 5 ≤ 100) ∧
      memberLabel 5 100 =
        "member" ++ padZero (Nat.digits 10 100).length (Nat.repr 5) :=
  ⟨⟨by decide, by decide⟩, member_label_pad_width.1 5 100 (by decide) (by decide)⟩

/-! ### The update-mode skip comparison is dead code

`src/woom/workflow.py` line 587 compares the *string* `status.name` against
the enum member `JobStatus.SUCCESS` with `is`; the two are never the same
object, so the comparison is constantly false. -/

/-- The skip check of update mode never fires, whatever the status. -/
theorem updateSkipCheck_false (st : JobStatusM) : updateSkipCheck st = false := rfl

/-! ### Conflict-abort invariants (machinery for the run-loop claims) -/

theorem OkInv.nil (running : Slot → Bool) : OkInv running [] [] :=
  ⟨fun s hs => absurd hs (by simp), fun e he => absurd he (by simp)⟩

theorem OkInv.append {running : Slot → Bool} {s1 s2 : List Slot}
    {e1 e2 : List RunEvent} (h1 : OkInv running s1 e1)
    (h2 : OkInv running s2 e2) : OkInv running (s1 ++ s2) (e1 ++ e2) := by
  refine ⟨fun s hs => ?_, fun e he => ?_⟩
  · rcases List.mem_append.mp hs with h | h
    · exact h1.1 s h
    · exact h2.1 s h
  · rcases List.mem_append.mp he with h | h
    · exact List.mem_append.mpr (Or.inl (h1.2 e h))
    · exact List.mem_append.mpr (Or.inr (h2.2 e h))

theorem ErrInv.append_right {running : Slot → Bool} {s1 s2 : List Slot}
    {e : List RunEvent} (h : ErrInv running s1 e) :
    ErrInv running (s1 ++ s2) e := by
  obtain ⟨pre, conf, post, hsplit, hconf, hpre, hev⟩ := h
  exact ⟨pre, conf, post ++ s2, by rw [hsplit]; simp, hconf, hpre, hev⟩

theorem ErrInv.prepend_ok {running : Slot → Bool} {s1 s2 : List Slot}
    {e1 e2 : List RunEvent} (h1 : OkInv running s1 e1)
    (h2 : ErrInv running s2 e2) : ErrInv running (s1 ++ s2) (e1 ++ e2) := by
  obtain ⟨pre, conf, post, hsplit, hconf, hpre, hev⟩ := h2
  refine ⟨s1 ++ pre, conf, post, by rw [hsplit]; simp, hconf,
    fun s hs => ?_, fun e he => ?_⟩
  · rcases List.mem_append.mp hs with h | h
    · exact h1.1 s h
    · exact hpre s h
  · rcases List.mem_append.mp he with h | h
    · exact List.mem_append.mpr (Or.inl (h1.2 e h))
    · exact List.mem_append.mpr (Or.inr (hev e h))

theorem runMembers_ok_inv (cfg : RunConfig) (t c : String) (dep : List Nat)
    (ms : List (Option Nat)) :
    ∀ (nid nid1 : Nat) (evs : List RunEvent) (jobs : List Nat),
      runMembers cfg t c dep nid ms = .ok (nid1, evs, jobs) →
      OkInv (fun s => (cfg.statusOf s).is_running)
        (ms.map (fun m => ⟨t, c, m⟩)) evs := by
  induction ms with
  | nil =>
    intro nid nid1 evs jobs h
    rw [runMembers] at h
    simp only [Except.ok.injEq, Prod.mk.injEq] at h
    obtain ⟨-, h2, -⟩ := h
    exact h2 ▸ OkInv.nil _
  | cons m rest ih =>
    intro nid nid1 evs jobs h
    rw [runMembers] at h
    by_cases hr : (cfg.statusOf ⟨t, c, m⟩).is_running = true
    · rw [if_pos hr] at h; cases h
    · rw [if_neg hr] at h
      rw [updateSkipCheck_false, Bool.and_false] at h
      rw [if_neg (by simp)] at h
      simp only [Bool.not_eq_true] at hr
      cases hrec : runMembers cfg t c dep (nid + 1) rest with
      | error evs2 => rw [hrec] at h; cases h
      | ok res =>
        obtain ⟨nid2, evs2, jobs2⟩ := res
        rw [hrec] at h
        simp only [Except.ok.injEq, Prod.mk.injEq] at h
        obtain ⟨-, h2, -⟩ := h
        have hIH := ih (nid + 1) nid2 evs2 jobs2 hrec
        refine h2 ▸ ⟨fun s hs => ?_, fun e he => ?_⟩
        · rcases List.mem_cons.mp hs with h1 | h1
          · exact h1 ▸ hr
          · exact hIH.1 s h1
        · rcases List.mem_cons.mp he with h1 | h1
          · rw [h1]; exact List.mem_cons_self _ _
          rcases List.mem_cons.mp h1 with h3 | h3
          · rw [h3]; exact List.mem_cons_self _ _
          · exact List.mem_cons.mpr (Or.inr (hIH.2 e h3))

theorem runMembers_err_inv (cfg : RunConfig) (t c : String) (dep : List Nat)
    (ms : List (Option Nat)) :
    ∀ (nid : Nat) (evs : List RunEvent),
      runMembers cfg t c dep nid ms = .error evs →
      ErrInv (fun s => (cfg.statusOf s).is_running)
        (ms.map (fun m => ⟨t, c, m⟩)) evs := by
  induction ms with
  | nil => intro nid evs h; rw [runMembers] at h; cases h
  | cons m rest ih =>
    intro nid evs h
    rw [runMembers] at h
    by_cases hr : (cfg.statusOf ⟨t, c, m⟩).is_running = true
    · rw [if_pos hr] at h
      simp only [Except.error.injEq] at h
      refine ⟨[], ⟨t, c, m⟩, rest.map (fun m => ⟨t, c, m⟩), by simp, hr,
        fun s hs => absurd hs (by simp), fun e he => ?_⟩
      rw [← h] at he
      exact absurd he (by simp)
    · rw [if_neg hr] at h
      rw [updateSkipCheck_false, Bool.and_false] at h
      rw [if_neg (by simp)] at h
      simp only [Bool.not_eq_true] at hr
      cases hrec : runMembers cfg t c dep (nid + 1) rest with
      | ok res => rw [hrec] at h; cases h
      | error evs2 =>
        rw [hrec] at h
        simp only [Except.error.injEq] at h
        obtain ⟨pre, conf, post, hsplit, hconf, hpre, hev⟩ :=
          ih (nid + 1) evs2 hrec
        refine ⟨⟨t, c, m⟩ :: pre, conf, post,
          by rw [List.map_cons, hsplit, List.cons_append],
          hconf, fun s hs => ?_, fun e he => ?_⟩
        · rcases List.mem_cons.mp hs with h1 | h1
          · exact h1 ▸ hr
          · exact hpre s h1
        · rw [← h] at he
          rcases List.mem_cons.mp he with h1 | h1
          · rw [h1]; exact List.mem_cons_self _ _
          rcases List.mem_cons.mp h1 with h3 | h3
          · rw [h3]; exact List.mem_cons_self _ _
          · exact List.mem_cons.mpr (Or.inr (hev e h3))

theorem runGroupTasks_ok_inv (cfg : RunConfig) (c : String) (g : List String) :
    ∀ (dep : List Nat) (nid nid1 : Nat) (evs : List RunEvent) (out : List Nat),
      runGroupTasks cfg c dep nid g = .ok (nid1, evs, out) →
      OkInv (fun s => (cfg.statusOf s).is_running)
        (groupSlots cfg.taskMembers c g) evs := by
  induction g with
  | nil =>
    intro dep nid nid1 evs out h
    rw [runGroupTasks] at h
    simp only [Except.ok.injEq, Prod.mk.injEq] at h
    obtain ⟨-, h2, -⟩ := h
    exact h2 ▸ OkInv.nil _
  | cons t rest ih =>
    intro dep nid nid1 evs out h
    rw [runGroupTasks] at h
    cases hm : runMembers cfg t c dep nid (membersOf cfg.taskMembers t) with
    | error evs0 => rw [hm] at h; cases h
    | ok res =>
      obtain ⟨nidA, evsA, jobsA⟩ := res
      rw [hm] at h
      simp only at h
      cases hrec : runGroupTasks cfg c jobsA nidA rest with
      | error evs0 => rw [hrec] at h; cases h
      | ok res2 =>
        obtain ⟨nidB, evsB, outB⟩ := res2
        rw [hrec] at h
        simp only [Except.ok.injEq, Prod.mk.injEq] at h
        obtain ⟨-, h2, -⟩ := h
        rw [groupSlots, List.flatMap_cons, ← h2]
        exact OkInv.append
          (runMembers_ok_inv cfg t c dep _ nid nidA evsA jobsA hm)
          (ih jobsA nidA nidB evsB outB hrec)

theorem runGroupTasks_err_inv (cfg : RunConfig) (c : String) (g : List String) :
    ∀ (dep : List Nat) (nid : Nat) (evs : List RunEvent),
      runGroupTasks cfg c dep nid g = .error evs →
      ErrInv (fun s => (cfg.statusOf s).is_running)
        (groupSlots cfg.taskMembers c g) evs := by
  induction g with
  | nil => intro dep nid evs h; rw [runGroupTasks] at h; cases h
  | cons t rest ih =>
    intro dep nid evs h
    rw [runGroupTasks] at h
    cases hm : runMembers cfg t c dep nid (membersOf cfg.taskMembers t) with
    | error evs0 =>
      rw [hm] at h
      simp only [Except.error.injEq] at h
      rw [groupSlots, List.flatMap_cons, ← h]
      exact (runMembers_err_inv cfg t c dep _ nid evs0 hm).append_right
    | ok res =>
      obtain ⟨nidA, evsA, jobsA⟩ := res
      rw [hm] at h
      simp only at h
      cases hrec : runGroupTasks cfg c jobsA nidA rest with
      | ok res2 => rw [hrec] at h; cases h
      | error evs0 =>
        rw [hrec] at h
        simp only [Except.error.injEq] at h
        rw [groupSlots, List.flatMap_cons, ← h]
        exact ErrInv.prepend_ok
          (runMembers_ok_inv cfg t c dep _ nid nidA evsA jobsA hm)
          (ih jobsA nidA evs0 hrec)

theorem runGroups_ok_inv (cfg : RunConfig) (c : String) (gs : List (List String)) :
    ∀ (seqDep : List Nat) (nid nid1 : Nat) (evs : List RunEvent) (out : List Nat),
      runGroups cfg c seqDep nid gs = .ok (nid1, evs, out) →
      OkInv (fun s => (cfg.statusOf s).is_running)
        (groupsSlots cfg.taskMembers c gs) evs := by
  induction gs with
  | nil =>
    intro seqDep nid nid1 evs out h
    rw [runGroups] at h
    simp only [Except.ok.injEq, Prod.mk.injEq] at h
    obtain ⟨-, h2, -⟩ := h
    exact h2 ▸ OkInv.nil _
  | cons g rest ih =>
    intro seqDep nid nid1 evs out h
    rw [runGroups] at h
    cases hg : runGroupTasks cfg c seqDep nid g with
    | error evs0 => rw [hg] at h; cases h
    | ok res =>
      obtain ⟨nidA, evsA, lastA⟩ := res
      rw [hg] at h
      simp only at h
      cases hrec : runGroups cfg c seqDep nidA rest with
      | error evs0 => rw [hrec] at h; cases h
      | ok res2 =>
        obtain ⟨nidB, evsB, outB⟩ := res2
        rw [hrec] at h
        simp only [Except.ok.injEq, Prod.mk.injEq] at h
        obtain ⟨-, h2, -⟩ := h
        rw [groupsSlots, List.flatMap_cons, ← h2]
        exact OkInv.append
          (runGroupTasks_ok_inv cfg c g seqDep nid nidA evsA lastA hg)
          (ih seqDep nidA nidB evsB outB hrec)

theorem runGroups_err_inv (cfg : RunConfig) (c : String) (gs : List (List String)) :
    ∀ (seqDep : List Nat) (nid : Nat) (evs : List RunEvent),
      runGroups cfg c seqDep nid gs = .error evs →
      ErrInv (fun s => (cfg.statusOf s).is_running)
        (groupsSlots cfg.taskMembers c gs) evs := by
  induction gs with
  | nil => intro seqDep nid evs h; rw [runGroups] at h; cases h
  | cons g rest ih =>
    intro seqDep nid evs h
    rw [runGroups] at h
    cases hg : runGroupTasks cfg c seqDep nid g with
    | error evs0 =>
      rw [hg] at h
      simp only [Except.error.injEq] at h
      rw [groupsSlots, List.flatMap_cons, ← h]
      exact (runGroupTasks_err_inv cfg c g seqDep nid evs0 hg).append_right
    | ok res =>
      obtain ⟨nidA, evsA, lastA⟩ := res
      rw [hg] at h
      simp only at h
      cases hrec : runGroups cfg c seqDep nidA rest with
      | ok res2 => rw [hrec] at h; cases h
      | error evs0 =>
        rw [hrec] at h
        simp only [Except.error.injEq] at h
        rw [groupsSlots, List.flatMap_cons, ← h]
        exact ErrInv.prepend_ok
          (runGroupTasks_ok_inv cfg c g seqDep nid nidA evsA lastA hg)
          (ih seqDep nidA evs0 hrec)

theorem runSequences_ok_inv (cfg : RunConfig) (c : String)
    (seqs : List (String × List (List String))) :
    ∀ (seqDep : List Nat) (nid nid1 : Nat) (evs : List RunEvent) (out : List Nat),
      runSequences cfg c seqDep nid seqs = .ok (nid1, evs, out) →
      OkInv (fun s => (cfg.statusOf s).is_running)
        (seqsSlots cfg.taskMembers c seqs) evs := by
  induction seqs with
  | nil =>
    intro seqDep nid nid1 evs out h
    rw [runSequences] at h
    simp only [Except.ok.injEq, Prod.mk.injEq] at h
    obtain ⟨-, h2, -⟩ := h
    exact h2 ▸ OkInv.nil _
  | cons sq rest ih =>
    intro seqDep nid nid1 evs out h
    rw [runSequences] at h
    by_cases hemp : sq.2 = []
    · rw [if_pos hemp] at h
      have := ih seqDep nid nid1 evs out h
      rw [seqsSlots, List.flatMap_cons, if_pos hemp, List.nil_append]
      exact this
    · rw [if_neg hemp] at h
      cases hg : runGroups cfg c seqDep nid sq.2 with
      | error evs0 => rw [hg] at h; cases h
      | ok res =>
        obtain ⟨nidA, evsA, seqJobsA⟩ := res
        rw [hg] at h
        simp only at h
        cases hrec : runSequences cfg c seqJobsA nidA rest with
        | error evs0 => rw [hrec] at h; cases h
        | ok res2 =>
          obtain ⟨nidB, evsB, outB⟩ := res2
          rw [hrec] at h
          simp only [Except.ok.injEq, Prod.mk.injEq] at h
          obtain ⟨-, h2, -⟩ := h
          rw [seqsSlots, List.flatMap_cons, if_neg hemp, ← h2]
          exact OkInv.append
            (runGroups_ok_inv cfg c sq.2 seqDep nid nidA evsA seqJobsA hg)
            (ih seqJobsA nidA nidB evsB outB hrec)

theorem runSequences_err_inv (cfg : RunConfig) (c : String)
    (seqs : List (String × List (List String))) :
    ∀ (seqDep : List Nat) (nid : Nat) (evs : List RunEvent),
      runSequences cfg c seqDep nid seqs = .error evs →
      ErrInv (fun s => (cfg.statusOf s).is_running)
        (seqsSlots cfg.taskMembers c seqs) evs := by
  induction seqs with
  | nil => intro seqDep nid evs h; rw [runSequences] at h; cases h
  | cons sq rest ih =>
    intro seqDep nid evs h
    rw [runSequences] at h
    by_cases hemp : sq.2 = []
    · rw [if_pos hemp] at h
      have := ih seqDep nid evs h
      rw [seqsSlots, List.flatMap_cons, if_pos hemp, List.nil_append]
      exact this
    · rw [if_neg hemp] at h
      cases hg : runGroups cfg c seqDep nid sq.2 with
      | error evs0 =>
        rw [hg] at h
        simp only [Except.error.injEq] at h
        rw [seqsSlots, List.flatMap_cons, if_neg hemp, ← h]
        exact (runGroups_err_inv cfg c sq.2 seqDep nid evs0 hg).append_right
      | ok res =>
        obtain ⟨nidA, evsA, seqJobsA⟩ := res
        rw [hg] at h
        simp only at h
        cases hrec : runSequences cfg c seqJobsA nidA rest with
        | ok res2 => rw [hrec] at h; cases h
        | error evs0 =>
          rw [hrec] at h
          simp only [Except.error.injEq] at h
          rw [seqsSlots, List.flatMap_cons, if_neg hemp, ← h]
          exact ErrInv.prepend_ok
            (runGroups_ok_inv cfg c sq.2 seqDep nid nidA evsA seqJobsA hg)
            (ih seqJobsA nidA evs0 hrec)

theorem runCyclesLoop_ok_inv (cfg : RunConfig) (isCycles indep : Bool)
    (seqs : List (String × List (List String))) (cycles : List String) :
    ∀ (stageDep seqDep stageJobs : List Nat) (nid nid1 : Nat)
      (evs : List RunEvent) (out : List Nat),
      runCyclesLoop cfg isCycles indep seqs stageDep seqDep stageJobs nid cycles =
        .ok (nid1, evs, out) →
      OkInv (fun s => (cfg.statusOf s).is_running)
        (cyclesSlots cfg.taskMembers seqs cycles) evs := by
  induction cycles with
  | nil =>
    intro stageDep seqDep stageJobs nid nid1 evs out h
    rw [runCyclesLoop] at h
    simp only [Except.ok.injEq, Prod.mk.injEq] at h
    obtain ⟨-, h2, -⟩ := h
    exact h2 ▸ OkInv.nil _
  | cons c rest ih =>
    intro stageDep seqDep stageJobs nid nid1 evs out h
    rw [runCyclesLoop] at h
    cases hs : runSequences cfg c
        (if isCycles && indep then stageDep else seqDep) nid seqs with
    | error evs0 => rw [hs] at h; cases h
    | ok res =>
      obtain ⟨nidA, evsA, seqDepA⟩ := res
      rw [hs] at h
      simp only at h
      cases hrec : runCyclesLoop cfg isCycles indep seqs stageDep seqDepA
          (if isCycles && indep then stageJobs ++ seqDepA else seqDepA) nidA rest with
      | error evs0 => rw [hrec] at h; cases h
      | ok res2 =>
        obtain ⟨nidB, evsB, outB⟩ := res2
        rw [hrec] at h
        simp only [Except.ok.injEq, Prod.mk.injEq] at h
        obtain ⟨-, h2, -⟩ := h
        rw [cyclesSlots, List.flatMap_cons, ← h2]
        exact OkInv.append
          (runSequences_ok_inv cfg c seqs _ nid nidA evsA seqDepA hs)
          (ih stageDep seqDepA _ nidA nidB evsB outB hrec)

theorem runCyclesLoop_err_inv (cfg : RunConfig) (isCycles indep : Bool)
    (seqs : List (String × List (List String))) (cycles : List String) :
    ∀ (stageDep seqDep stageJobs : List Nat) (nid : Nat) (evs : List RunEvent),
      runCyclesLoop cfg isCycles indep seqs stageDep seqDep stageJobs nid cycles =
        .error evs →
      ErrInv (fun s => (cfg.statusOf s).is_running)
        (cyclesSlots cfg.taskMembers seqs cycles) evs := by
  induction cycles with
  | nil => intro stageDep seqDep stageJobs nid evs h; rw [runCyclesLoop] at h; cases h
  | cons c rest ih =>
    intro stageDep seqDep stageJobs nid evs h
    rw [runCyclesLoop] at h
    cases hs : runSequences cfg c
        (if isCycles && indep then stageDep else seqDep) nid seqs with
    | error evs0 =>
      rw [hs] at h
      simp only [Except.error.injEq] at h
      rw [cyclesSlots, List.flatMap_cons, ← h]
      exact (runSequences_err_inv cfg c seqs _ nid evs0 hs).append_right
    | ok res =>
      obtain ⟨nidA, evsA, seqDepA⟩ := res
      rw [hs] at h
      simp only at h
      cases hrec : runCyclesLoop cfg isCycles indep seqs stageDep seqDepA
          (if isCycles && indep then stageJobs ++ seqDepA else seqDepA) nidA rest with
      | ok res2 => rw [hrec] at h; cases h
      | error evs0 =>
        rw [hrec] at h
        simp only [Except.error.injEq] at h
        rw [cyclesSlots, List.flatMap_cons, ← h]
        exact ErrInv.prepend_ok
          (runSequences_ok_inv cfg c seqs _ nid nidA evsA seqDepA hs)
          (ih stageDep seqDepA _ nidA evs0 hrec)

theorem runStages_ok_inv (cfg : RunConfig) (cyclesList : List String)
    (indep : Bool) (stages : List (String × List (String × List (List String)))) :
    ∀ (stageDep : List Nat) (nid nid1 : Nat) (evs : List RunEvent),
      runStages cfg cyclesList indep stageDep nid stages = .ok (nid1, evs) →
      OkInv (fun s => (cfg.statusOf s).is_running)
        (workflowIter cfg.taskMembers stages cyclesList) evs := by
  induction stages with
  | nil =>
    intro stageDep nid nid1 evs h
    rw [runStages] at h
    simp only [Except.ok.injEq, Prod.mk.injEq] at h
    exact h.2 ▸ OkInv.nil _
  | cons st rest ih =>
    intro stageDep nid nid1 evs h
    rw [runStages] at h
    by_cases hemp : st.2 = []
    · rw [if_pos hemp] at h
      have := ih stageDep nid nid1 evs h
      rw [workflowIter, List.flatMap_cons, if_pos hemp, List.nil_append]
      exact this
    · rw [if_neg hemp] at h
      simp only at h
      cases hc : runCyclesLoop cfg (st.1 == "cycles") indep st.2 stageDep stageDep
          [] nid (if st.1 == "cycles" then cyclesList else [st.1]) with
      | error evs0 => rw [hc] at h; cases h
      | ok res =>
        obtain ⟨nidA, evsA, stageJobsA⟩ := res
        rw [hc] at h
        simp only at h
        cases hrec : runStages cfg cyclesList indep stageJobsA nidA rest with
        | error evs0 => rw [hrec] at h; cases h
        | ok res2 =>
          obtain ⟨nidB, evsB⟩ := res2
          rw [hrec] at h
          simp only [Except.ok.injEq, Prod.mk.injEq] at h
          obtain ⟨-, h2⟩ := h
          rw [workflowIter, List.flatMap_cons, if_neg hemp, ← h2]
          exact OkInv.append
            (runCyclesLoop_ok_inv cfg (st.1 == "cycles") indep st.2 _
              stageDep stageDep [] nid nidA evsA stageJobsA hc)
            (ih stageJobsA nidA nidB evsB hrec)

theorem runStages_err_inv (cfg : RunConfig) (cyclesList : List String)
    (indep : Bool) (stages : List (String × List (String × List (List String)))) :
    ∀ (stageDep : List Nat) (nid : Nat) (evs : List RunEvent),
      runStages cfg cyclesList indep stageDep nid stages = .error evs →
      ErrInv (fun s => (cfg.statusOf s).is_running)
        (workflowIter cfg.taskMembers stages cyclesList) evs := by
  induction stages with
  | nil => intro stageDep nid evs h; rw [runStages] at h; cases h
  | cons st rest ih =>
    intro stageDep nid evs h
    rw [runStages] at h
    by_cases hemp : st.2 = []
    · rw [if_pos hemp] at h
      have := ih stageDep nid evs h
      rw [workflowIter, List.flatMap_cons, if_pos hemp, List.nil_append]
      exact this
    · rw [if_neg hemp] at h
      simp only at h
      cases hc : runCyclesLoop cfg (st.1 == "cycles") indep st.2 stageDep stageDep
          [] nid (if st.1 == "cycles" then cyclesList else [st.1]) with
      | error evs0 =>
        rw [hc] at h
        simp only [Except.error.injEq] at h
        rw [workflowIter, List.flatMap_cons, if_neg hemp, ← h]
        exact (runCyclesLoop_err_inv cfg (st.1 == "cycles") indep st.2 _
          stageDep stageDep [] nid evs0 hc).append_right
      | ok res =>
        obtain ⟨nidA, evsA, stageJobsA⟩ := res
        rw [hc] at h
        simp only at h
        cases hrec : runStages cfg cyclesList indep stageJobsA nidA rest with
        | ok res2 => rw [hrec] at h; cases h
        | error evs0 =>
          rw [hrec] at h
          simp only [Except.error.injEq] at h
          rw [workflowIter, List.flatMap_cons, if_neg hemp, ← h]
          exact ErrInv.prepend_ok
            (runCyclesLoop_ok_inv cfg (st.1 == "cycles") indep st.2 _
              stageDep stageDep [] nid nidA evsA stageJobsA hc)
            (ih stageJobsA nidA evs0 hrec)

/-- C4: `Workflow.run` queries each visited (task, cycle, member) slot's
status first; it finishes without aborting iff no visited slot is running,
and when some slot is running it raises the workflow-conflict error at the
first such slot in visitation order (`Workflow.__iter__` order), having
acted — cleaned or submitted — only on the slots visited strictly before
it: no partial continuation. -/
theorem run_aborts_on_running_conflict (cfg : RunConfig)
    (stages : List (String × List (String × List (List String))))
    (cyclesList : List String) (indep : Bool) :
    ((workflowRun cfg stages cyclesList indep).aborted = false ↔
      ∀ s ∈ workflowIter cfg.taskMembers stages cyclesList,
        (cfg.statusOf s).is_running = false) ∧
    ((workflowRun cfg stages cyclesList indep).aborted = true →
      ∃ pre conf post,
        workflowIter cfg.taskMembers stages cyclesList = pre ++ conf :: post ∧
        (cfg.statusOf conf).is_running = true ∧
        (∀ s ∈ pre, (cfg.statusOf s).is_running = false) ∧
        ∀ e ∈ (workflowRun cfg stages cyclesList indep).events,
          RunEvent.slot e ∈ pre) := by
  cases hR : runStages cfg cyclesList indep [] 0 stages with
  | ok res =>
    obtain ⟨nid1, evs⟩ := res
    have hG : workflowRun cfg stages cyclesList indep = ⟨evs, false⟩ := by
      rw [workflowRun, hR]
    have hOk := runStages_ok_inv cfg cyclesList indep stages [] 0 nid1 evs hR
    rw [hG]
    exact ⟨⟨fun _ => hOk.1, fun _ => rfl⟩, fun hab => absurd hab (by simp)⟩
  | error evs =>
    have hG : workflowRun cfg stages cyclesList indep = ⟨evs, true⟩ := by
      rw [workflowRun, hR]
    obtain ⟨pre, conf, post, hsplit, hconf, hpre, hev⟩ :=
      runStages_err_inv cfg cyclesList indep stages [] 0 evs hR
    rw [hG]
    constructor
    · constructor
      · intro hfa; exact absurd hfa (by simp)
      · intro hall
        have hmem : conf ∈ workflowIter cfg.taskMembers stages cyclesList := by
          rw [hsplit]
          exact List.mem_append.mpr (Or.inr (List.mem_cons_self _ _))
        have hconf2 : (cfg.statusOf conf).is_running = true := hconf
        rw [hall conf hmem] at hconf2
        cases hconf2
    · exact fun _ => ⟨pre, conf, post, hsplit, hconf, hpre, hev⟩

/-- C4 witness: with every status reporting `NOTSUBMITTED`, the run is not
aborted. -/
theorem run_aborts_on_running_conflict_witness :
    (workflowRun ⟨fun _ => JobStatusM.NOTSUBMITTED, false, fun _ => none⟩
      [("prolog", [("s1", [["A"]])])] [] false).aborted = false :=
  (run_aborts_on_running_conflict
    ⟨fun _ => JobStatusM.NOTSUBMITTED, false, fun _ => none⟩
    [("prolog", [("s1", [["A"]])])] [] false).1.mpr (fun _ _ => rfl)

/-- C5 (code_bug evidence): the update-mode skip comparison at
`src/woom/workflow.py` line 587 tests `status.name is JobStatus.SUCCESS` —
a string against an enum member — which is false for every status, so in
update mode a slot whose queried status is `SUCCESS` is *not* skipped: it is
cleaned and resubmitted (here on the single-task workflow, despite
`update = True` and a `SUCCESS` status, the trace contains the clean and the
submission). -/
theorem update_mode_success_not_skipped :
    (∀ st : JobStatusM, updateSkipCheck st = false) ∧
    workflowRun ⟨fun _ => JobStatusM.SUCCESS, true, fun _ => none⟩
        [("prolog", [("s1", [["A"]])])] [] false =
      ⟨[.clean ⟨"A", "prolog", none⟩, .submit ⟨"A", "prolog", none⟩ 0 []],
        false⟩ :=
  ⟨fun st => updateSkipCheck_false st, rfl⟩

/-- C6 (counterexample): `Job.update_status` with a fresh `UNKOWN` (sic)
observation overwrites a stored `RUNNING` status — nothing is retained. -/
theorem update_status_unknown_overwrites :
    (Job.update_status true ⟨"1", JobStatus.RUNNING, none, none⟩
        (.status JobStatus.UNKOWN)).status = JobStatus.UNKOWN ∧
      JobStatus.UNKOWN ≠ JobStatus.RUNNING :=
  ⟨rfl, by decide⟩

/-- C6 (amended): `Job.update_status` applies the given observation
unconditionally — the stale `src/woom/job.py` has no retention guard, so an
`UNKOWN` value or observation overwrites whatever status was stored, and a
`None` argument stores the result of the process probe (`RUNNING` or
`UNKOWN`). -/
theorem update_status_unconditional :
    (∀ (pe : Bool) (j : Job) (s : JobStatus),
      (j.update_status pe (.status s)).status = s) ∧
    (∀ (pe : Bool) (j : Job) (id q : String) (s : JobStatus) (tm : Option Int),
      (j.update_status pe (.dict id q s tm)).status = s) ∧
    ∀ (pe : Bool) (j : Job),
      (j.update_status pe .noneArg).status =
        if pe then JobStatus.RUNNING else JobStatus.UNKOWN :=
  ⟨fun _ _ _ => rfl, fun _ _ _ _ _ _ => rfl, fun _ _ => rfl⟩

/-! ### Dependency-propagation machinery (C2) -/

theorem memberSlots_mem {tm : String → Option (List Nat)} {t c : String}
    {s : Slot} (h : s ∈ memberSlots tm t c) : s.task = t ∧ s.cycle = c := by
  rw [memberSlots] at h
  obtain ⟨m, -, hm⟩ := List.mem_map.mp h
  rw [← hm]
  exact ⟨rfl, rfl⟩

theorem groupSlots_mem {tm : String → Option (List Nat)} {c : String}
    {g : List String} {s : Slot} (h : s ∈ groupSlots tm c g) :
    s.cycle = c ∧ s.task ∈ g := by
  rw [groupSlots] at h
  obtain ⟨t, ht, hs⟩ := List.mem_flatMap.mp h
  obtain ⟨h1, h2⟩ := memberSlots_mem hs
  exact ⟨h2, h1 ▸ ht⟩

theorem groupsSlots_mem {tm : String → Option (List Nat)} {c : String}
    {gs : List (List String)} {s : Slot} (h : s ∈ groupsSlots tm c gs) :
    s.cycle = c ∧ s.task ∈ gs.flatMap id := by
  rw [groupsSlots] at h
  obtain ⟨g, hg, hs⟩ := List.mem_flatMap.mp h
  obtain ⟨h1, h2⟩ := groupSlots_mem hs
  exact ⟨h1, List.mem_flatMap.mpr ⟨g, hg, h2⟩⟩

theorem seqsSlots_mem {tm : String → Option (List Nat)} {c : String}
    {seqs : List (String × List (List String))} {s : Slot}
    (h : s ∈ seqsSlots tm c seqs) : s.cycle = c ∧ s.task ∈ seqsTasks seqs := by
  rw [seqsSlots] at h
  obtain ⟨sq, hsq, hs⟩ := List.mem_flatMap.mp h
  by_cases hemp : sq.2 = []
  · rw [if_pos hemp] at hs
    exact absurd hs (by simp)
  · rw [if_neg hemp] at hs
    obtain ⟨h1, h2⟩ := groupsSlots_mem hs
    exact ⟨h1, List.mem_flatMap.mpr ⟨sq, hsq, h2⟩⟩

theorem submitIdsBy_append (p : Slot → Bool) (a b : List RunEvent) :
    submitIdsBy p (a ++ b) = submitIdsBy p a ++ submitIdsBy p b := by
  rw [submitIdsBy, submitIdsBy, submitIdsBy, List.filterMap_append]

theorem submitIdsBy_congr {p q : Slot → Bool} {evs : List RunEvent}
    (h : ∀ e ∈ evs, p (RunEvent.slot e) = q (RunEvent.slot e)) :
    submitIdsBy p evs = submitIdsBy q evs := by
  induction evs with
  | nil => rfl
  | cons e rest ih =>
    have hrest := ih (fun e' he' => h e' (List.mem_cons.mpr (Or.inr he')))
    have he := h e (List.mem_cons_self _ _)
    cases e with
    | clean s =>
      simp only [submitIdsBy, List.filterMap_cons] at hrest ⊢
      exact hrest
    | submit s id d =>
      simp only [submitIdsBy, List.filterMap_cons] at hrest ⊢
      rw [RunEvent.slot] at he
      rw [he, hrest]

theorem submitIdsBy_nil_of_false {p : Slot → Bool} {evs : List RunEvent}
    (h : ∀ e ∈ evs, p (RunEvent.slot e) = false) : submitIdsBy p evs = [] := by
  induction evs with
  | nil => rfl
  | cons e rest ih =>
    have hrest := ih (fun e' he' => h e' (List.mem_cons.mpr (Or.inr he')))
    have he := h e (List.mem_cons_self _ _)
    cases e with
    | clean s =>
      simp only [submitIdsBy, List.filterMap_cons] at hrest ⊢
      exact hrest
    | submit s id d =>
      simp only [submitIdsBy, List.filterMap_cons] at hrest ⊢
      rw [RunEvent.slot] at he
      rw [he, hrest]
      simp

/-- Under conflict-free statuses the member loop reduces to its closed form:
clean+submit per member with consecutive ids and the shared dependency
list.  (The update-skip branch is dead code — see `updateSkipCheck_false` —
so this holds for any `update` flag.) -/
theorem runMembers_noRun (cfg : RunConfig) (t c : String) (dep : List Nat)
    (hNoRun : ∀ s, (cfg.statusOf s).is_running = false)
    (ms : List (Option Nat)) :
    ∀ nid : Nat,
      runMembers cfg t c dep nid ms =
        .ok (nid + ms.length, membersEvs t c dep nid ms,
          List.range' nid ms.length) := by
  induction ms with
  | nil => intro nid; rw [runMembers, membersEvs]; rfl
  | cons m rest ih =>
    intro nid
    rw [runMembers]
    rw [if_neg (by rw [hNoRun ⟨t, c, m⟩]; simp)]
    rw [updateSkipCheck_false, Bool.and_false]
    rw [if_neg (by simp)]
    rw [ih (nid + 1)]
    simp only [membersEvs, List.length_cons, List.range']
    have hlen : nid + 1 + rest.length = nid + (rest.length + 1) := by omega
    rw [hlen]

theorem membersEvs_mem {t c : String} {dep : List Nat} :
    ∀ {ms : List (Option Nat)} {nid : Nat} {e : RunEvent},
      e ∈ membersEvs t c dep nid ms →
      (RunEvent.slot e).task = t ∧ (RunEvent.slot e).cycle = c := by
  intro ms
  induction ms with
  | nil => intro nid e he; exact absurd he (by simp [membersEvs])
  | cons m rest ih =>
    intro nid e he
    rw [membersEvs] at he
    rcases List.mem_cons.mp he with h1 | h1
    · rw [h1]; exact ⟨rfl, rfl⟩
    rcases List.mem_cons.mp h1 with h2 | h2
    · rw [h2]; exact ⟨rfl, rfl⟩
    · exact ih h2

theorem membersEvs_submit_dep {t c : String} {dep : List Nat} :
    ∀ {ms : List (Option Nat)} {nid : Nat} {s : Slot} {id : Nat} {d : List Nat},
      RunEvent.submit s id d ∈ membersEvs t c dep nid ms → d = dep := by
  intro ms
  induction ms with
  | nil => intro nid s id d h; exact absurd h (by simp [membersEvs])
  | cons m rest ih =>
    intro nid s id d h
    rw [membersEvs] at h
    rcases List.mem_cons.mp h with h1 | h1
    · cases h1
    rcases List.mem_cons.mp h1 with h2 | h2
    · cases h2; rfl
    · exact ih h2

theorem membersEvs_submitIds_pos {t c : String} {dep : List Nat}
    {p : Slot → Bool} (hp : ∀ m, p ⟨t, c, m⟩ = true) :
    ∀ (ms : List (Option Nat)) (nid : Nat),
      submitIdsBy p (membersEvs t c dep nid ms) = List.range' nid ms.length := by
  intro ms
  induction ms with
  | nil => intro nid; rfl
  | cons m rest ih =>
    intro nid
    rw [membersEvs]
    simp only [submitIdsBy, List.filterMap_cons] at ih ⊢
    rw [hp m, ih (nid + 1)]
    simp [List.range']

theorem getLast?_mem' {α : Type} {l : List α} {a : α}
    (h : l.getLast? = some a) : a ∈ l := by
  obtain ⟨hne, heq⟩ :=
    List.mem_getLast?_eq_getLast (by rw [Option.mem_def]; exact h)
  exact heq ▸ List.getLast_mem hne

theorem ErrInv.elim_noRun {cfg : RunConfig} {slots : List Slot}
    {evs : List RunEvent}
    (hNoRun : ∀ s, (cfg.statusOf s).is_running = false)
    (h : ErrInv (fun s => (cfg.statusOf s).is_running) slots evs) : False := by
  obtain ⟨-, conf, -, -, hconf, -, -⟩ := h
  have hc2 : (cfg.statusOf conf).is_running = true := hconf
  rw [hNoRun conf] at hc2
  cases hc2

theorem membersEvs_submitIds_neg {t c : String} {dep : List Nat}
    {p : Slot → Bool} (hp : ∀ m, p ⟨t, c, m⟩ = false) :
    ∀ (ms : List (Option Nat)) (nid : Nat),
      submitIdsBy p (membersEvs t c dep nid ms) = [] := by
  intro ms
  induction ms with
  | nil => intro nid; rfl
  | cons m rest ih =>
    intro nid
    rw [membersEvs]
    simp only [submitIdsBy, List.filterMap_cons] at ih ⊢
    rw [hp m, ih (nid + 1)]
    simp

/-- Within a group, every submission of the group's first task carries the
incoming `sequence_depend`. -/
theorem runGroupTasks_head_deps (cfg : RunConfig) (c : String)
    (hNoRun : ∀ s, (cfg.statusOf s).is_running = false)
    (t : String) (ts : List String) (ht : t ∉ ts)
    (dep : List Nat) (nid nid1 : Nat) (evs : List RunEvent) (out : List Nat)
    (h : runGroupTasks cfg c dep nid (t :: ts) = .ok (nid1, evs, out)) :
    ∀ (s : Slot) (id : Nat) (d : List Nat),
      RunEvent.submit s id d ∈ evs → s.task = t → d = dep := by
  intro s id d hmem htask
  rw [runGroupTasks, runMembers_noRun cfg t c dep hNoRun _ nid] at h
  simp only at h
  generalize hjobs : List.range' nid (membersOf cfg.taskMembers t).length = jobsA at h
  generalize hnid : nid + (membersOf cfg.taskMembers t).length = nidA at h
  cases hrec : runGroupTasks cfg c jobsA nidA ts with
  | error evs0 => rw [hrec] at h; cases h
  | ok res2 =>
    obtain ⟨nidB, evsB, outB⟩ := res2
    rw [hrec] at h
    simp only [Except.ok.injEq, Prod.mk.injEq] at h
    obtain ⟨-, h2, -⟩ := h
    rw [← h2] at hmem
    rcases List.mem_append.mp hmem with hA | hB
    · exact membersEvs_submit_dep hA
    · have hInv := runGroupTasks_ok_inv cfg c ts jobsA nidA nidB evsB outB hrec
      have hslot := hInv.2 _ hB
      have hts : s.task ∈ ts := (groupSlots_mem hslot).2
      exact absurd (htask ▸ hts) ht

/-- Within a group, the returned `task_jobs` are exactly the ids of the
submissions of the group's last task. -/
theorem runGroupTasks_last_ids (cfg : RunConfig) (c : String)
    (hNoRun : ∀ s, (cfg.statusOf s).is_running = false) :
    ∀ (g : List String), g.Nodup →
      ∀ tl : String, g.getLast? = some tl →
      ∀ (dep : List Nat) (nid nid1 : Nat) (evs : List RunEvent) (out : List Nat),
        runGroupTasks cfg c dep nid g = .ok (nid1, evs, out) →
        submitIdsBy (fun s => s.task == tl) evs = out := by
  intro g
  induction g with
  | nil => intro _ tl htl; cases htl
  | cons t rest ih =>
    intro hnd tl htl dep nid nid1 evs out h
    rw [runGroupTasks, runMembers_noRun cfg t c dep hNoRun _ nid] at h
    simp only at h
    generalize hjobs : List.range' nid (membersOf cfg.taskMembers t).length = jobsA at h
    generalize hnid : nid + (membersOf cfg.taskMembers t).length = nidA at h
    cases rest with
    | nil =>
      have htl2 : tl = t := by
        rw [List.getLast?_singleton] at htl
        exact (Option.some.injEq _ _ ▸ htl).symm
      rw [runGroupTasks] at h
      simp only [Except.ok.injEq, Prod.mk.injEq] at h
      obtain ⟨-, h2, h3⟩ := h
      rw [← h2, ← h3, List.append_nil, htl2]
      rw [@membersEvs_submitIds_pos t c dep (fun s => s.task == t)
        (fun m => by simp)]
      exact hjobs
    | cons t2 rest2 =>
      rw [List.getLast?_cons_cons] at htl
      obtain ⟨htns, hnd2⟩ := List.nodup_cons.mp hnd
      have htl_mem : tl ∈ t2 :: rest2 := getLast?_mem' htl
      have htne : t ≠ tl := fun hEq => htns (hEq ▸ htl_mem)
      cases hrec : runGroupTasks cfg c jobsA nidA (t2 :: rest2) with
      | error evs0 => rw [hrec] at h; cases h
      | ok res2 =>
        obtain ⟨nidB, evsB, outB⟩ := res2
        rw [hrec] at h
        simp only [Except.ok.injEq, Prod.mk.injEq] at h
        obtain ⟨-, h2, h3⟩ := h
        rw [← h2, ← h3, submitIdsBy_append]
        rw [@membersEvs_submitIds_neg t c dep (fun s => s.task == tl)
          (fun m => beq_eq_false_iff_ne.mpr htne)]
        rw [List.nil_append]
        exact ih hnd2 tl htl jobsA nidA nidB evsB outB hrec

theorem mem_heads_sub {gs : List (List String)} {t : String}
    (h : t ∈ gs.filterMap List.head?) : t ∈ gs.flatMap id := by
  obtain ⟨g, hg, hgh⟩ := List.mem_filterMap.mp h
  exact List.mem_flatMap.mpr ⟨g, hg, List.mem_of_mem_head? hgh⟩

theorem mem_lasts_sub {gs : List (List String)} {t : String}
    (h : t ∈ gs.filterMap List.getLast?) : t ∈ gs.flatMap id := by
  obtain ⟨g, hg, hgh⟩ := List.mem_filterMap.mp h
  exact List.mem_flatMap.mpr ⟨g, hg, getLast?_mem' hgh⟩

/-- Across the groups of a sequence, every submission of a group's first
task carries the incoming `sequence_depend`. -/
theorem runGroups_head_deps (cfg : RunConfig) (c : String)
    (hNoRun : ∀ s, (cfg.statusOf s).is_running = false) :
    ∀ (gs : List (List String)), (gs.flatMap id).Nodup → (∀ g ∈ gs, g ≠ []) →
      ∀ (seqDep : List Nat) (nid nid1 : Nat) (evs : List RunEvent) (out : List Nat),
        runGroups cfg c seqDep nid gs = .ok (nid1, evs, out) →
        ∀ (s : Slot) (jid : Nat) (d : List Nat),
          RunEvent.submit s jid d ∈ evs →
          s.task ∈ gs.filterMap List.head? → d = seqDep := by
  intro gs
  induction gs with
  | nil =>
    intro _ _ seqDep nid nid1 evs out h s jid d hmem hhead
    rw [runGroups] at h
    simp only [Except.ok.injEq, Prod.mk.injEq] at h
    obtain ⟨-, h2, -⟩ := h
    rw [← h2] at hmem
    exact absurd hmem (by simp)
  | cons g rest ih =>
    intro hnd hne seqDep nid nid1 evs out h s jid d hmem hhead
    rw [runGroups] at h
    cases hg : runGroupTasks cfg c seqDep nid g with
    | error evs0 => rw [hg] at h; cases h
    | ok res =>
      obtain ⟨nidA, evsA, lastA⟩ := res
      rw [hg] at h
      simp only at h
      cases hrec : runGroups cfg c seqDep nidA rest with
      | error evs0 => rw [hrec] at h; cases h
      | ok res2 =>
        obtain ⟨nidB, evsB, outB⟩ := res2
        rw [hrec] at h
        simp only [Except.ok.injEq, Prod.mk.injEq] at h
        obtain ⟨-, h2, -⟩ := h
        rw [← h2] at hmem
        rw [List.flatMap_cons] at hnd
        obtain ⟨hndg, hndrest, hdisj⟩ := List.nodup_append.mp hnd
        cases g with
        | nil => exact absurd rfl (hne [] (by simp))
        | cons t0 gtail =>
          simp only [List.filterMap_cons, List.head?] at hhead
          rcases List.mem_append.mp hmem with hA | hB
          · have hInv := runGroupTasks_ok_inv cfg c (t0 :: gtail) seqDep nid
              nidA evsA lastA hg
            have htaskg : s.task ∈ t0 :: gtail := (groupSlots_mem (hInv.2 _ hA)).2
            rcases List.mem_cons.mp hhead with h0 | h0
            · exact runGroupTasks_head_deps cfg c hNoRun t0 gtail
                (List.nodup_cons.mp hndg).1 seqDep nid nidA evsA lastA hg
                s jid d hA h0
            · exact (hdisj htaskg (mem_heads_sub h0)).elim
          · have hInvB := runGroups_ok_inv cfg c rest seqDep nidA nidB evsB outB hrec
            have htaskr : s.task ∈ rest.flatMap id := (groupsSlots_mem (hInvB.2 _ hB)).2
            rcases List.mem_cons.mp hhead with h0 | h0
            · have hsg : s.task ∈ t0 :: gtail := by
                rw [h0]; exact List.mem_cons_self _ _
              exact (hdisj hsg htaskr).elim
            · exact ih hndrest (fun g' hg' => hne g' (List.mem_cons.mpr (Or.inr hg')))
                seqDep nidA nidB evsB outB hrec s jid d hB h0

/-- Across the groups of a sequence, the accumulated `sequence_jobs` are
exactly the submission ids of the last task of each group, in group order. -/
theorem runGroups_last_ids (cfg : RunConfig) (c : String)
    (hNoRun : ∀ s, (cfg.statusOf s).is_running = false) :
    ∀ (gs : List (List String)), (gs.flatMap id).Nodup → (∀ g ∈ gs, g ≠ []) →
      ∀ (seqDep : List Nat) (nid nid1 : Nat) (evs : List RunEvent) (out : List Nat),
        runGroups cfg c seqDep nid gs = .ok (nid1, evs, out) →
        submitIdsBy (fun s => decide (s.task ∈ gs.filterMap List.getLast?)) evs
          = out := by
  intro gs
  induction gs with
  | nil =>
    intro _ _ seqDep nid nid1 evs out h
    rw [runGroups] at h
    simp only [Except.ok.injEq, Prod.mk.injEq] at h
    obtain ⟨-, h2, h3⟩ := h
    rw [← h2, ← h3]
    rfl
  | cons g rest ih =>
    intro hnd hne seqDep nid nid1 evs out h
    rw [runGroups] at h
    cases hg : runGroupTasks cfg c seqDep nid g with
    | error evs0 => rw [hg] at h; cases h
    | ok res =>
      obtain ⟨nidA, evsA, lastA⟩ := res
      rw [hg] at h
      simp only at h
      cases hrec : runGroups cfg c seqDep nidA rest with
      | error evs0 => rw [hrec] at h; cases h
      | ok res2 =>
        obtain ⟨nidB, evsB, outB⟩ := res2
        rw [hrec] at h
        simp only [Except.ok.injEq, Prod.mk.injEq] at h
        obtain ⟨-, h2, h3⟩ := h
        rw [← h2, ← h3]
        rw [List.flatMap_cons] at hnd
        obtain ⟨hndg, hndrest, hdisj⟩ := List.nodup_append.mp hnd
        have hgne : g ≠ [] := hne g (List.mem_cons_self _ _)
        have hgl : g.getLast? = some (g.getLast hgne) :=
          List.getLast?_eq_getLast_of_ne_nil hgne
        have htl_mem : g.getLast hgne ∈ g := List.getLast_mem hgne
        have hInvA := runGroupTasks_ok_inv cfg c g seqDep nid nidA evsA lastA hg
        have hInvB := runGroups_ok_inv cfg c rest seqDep nidA nidB evsB outB hrec
        rw [submitIdsBy_append]
        have hcA : submitIdsBy
            (fun s => decide (s.task ∈ (g :: rest).filterMap List.getLast?)) evsA
            = submitIdsBy (fun s => s.task == g.getLast hgne) evsA := by
          refine submitIdsBy_congr (fun e he => ?_)
          have htask : (RunEvent.slot e).task ∈ g :=
            (groupSlots_mem (hInvA.2 e he)).2
          rw [List.filterMap_cons, hgl]
          by_cases hx : (RunEvent.slot e).task = g.getLast hgne
          · simp [hx]
          · have hnl : (RunEvent.slot e).task ∉ rest.filterMap List.getLast? :=
              fun hIn => hdisj htask (mem_lasts_sub hIn)
            simp [hx, hnl, beq_eq_false_iff_ne]
        have hcB : submitIdsBy
            (fun s => decide (s.task ∈ (g :: rest).filterMap List.getLast?)) evsB
            = submitIdsBy
              (fun s => decide (s.task ∈ rest.filterMap List.getLast?)) evsB := by
          refine submitIdsBy_congr (fun e he => ?_)
          have htask : (RunEvent.slot e).task ∈ rest.flatMap id :=
            (groupsSlots_mem (hInvB.2 e he)).2
          rw [List.filterMap_cons, hgl]
          have hne2 : (RunEvent.slot e).task ≠ g.getLast hgne :=
            fun hEq => hdisj (hEq ▸ htl_mem) htask
          simp [hne2]
        rw [hcA, hcB]
        rw [runGroupTasks_last_ids cfg c hNoRun g hndg _ hgl seqDep nid
          nidA evsA lastA hg]
        rw [ih hndrest (fun g' hg' => hne g' (List.mem_cons.mpr (Or.inr hg')))
          seqDep nidA nidB evsB outB hrec]

theorem mem_seqsTasks_of {seqs : List (String × List (List String))}
    {sq : String × List (List String)} {x : String}
    (hsq : sq ∈ seqs) (hx : x ∈ sq.2.flatMap id) : x ∈ seqsTasks seqs :=
  List.mem_flatMap.mpr ⟨sq, hsq, hx⟩

/-- In a stage iteration, every submission of a first-of-group task of the
first sequence carries the incoming `sequence_depend`. -/
theorem runSequences_head_deps (cfg : RunConfig) (c : String)
    (hNoRun : ∀ s, (cfg.statusOf s).is_running = false)
    (sq : String × List (List String)) (rest : List (String × List (List String)))
    (hwf : SeqsWellformed (sq :: rest))
    (hNodup : (seqsTasks (sq :: rest)).Nodup)
    (seqDep : List Nat) (nid nid1 : Nat) (evs : List RunEvent) (out : List Nat)
    (h : runSequences cfg c seqDep nid (sq :: rest) = .ok (nid1, evs, out)) :
    ∀ (s : Slot) (jid : Nat) (d : List Nat),
      RunEvent.submit s jid d ∈ evs →
      s.task ∈ firstGroupTasks (sq :: rest) → d = seqDep := by
  intro s jid d hmem hhead
  obtain ⟨hemp, hgne⟩ := hwf sq (List.mem_cons_self _ _)
  rw [runSequences, if_neg hemp] at h
  cases hg : runGroups cfg c seqDep nid sq.2 with
  | error evs0 => rw [hg] at h; cases h
  | ok res =>
    obtain ⟨nidA, evsA, seqJobsA⟩ := res
    rw [hg] at h
    simp only at h
    cases hrec : runSequences cfg c seqJobsA nidA rest with
    | error evs0 => rw [hrec] at h; cases h
    | ok res2 =>
      obtain ⟨nidB, evsB, outB⟩ := res2
      rw [hrec] at h
      simp only [Except.ok.injEq, Prod.mk.injEq] at h
      obtain ⟨-, h2, -⟩ := h
      rw [← h2] at hmem
      rw [seqsTasks, List.flatMap_cons] at hNodup
      obtain ⟨hnd1, hnd2, hdisj⟩ := List.nodup_append.mp hNodup
      rw [firstGroupTasks] at hhead
      rcases List.mem_append.mp hmem with hA | hB
      · exact runGroups_head_deps cfg c hNoRun sq.2 hnd1 hgne seqDep nid
          nidA evsA seqJobsA hg s jid d hA hhead
      · have hInvB := runSequences_ok_inv cfg c rest seqJobsA nidA nidB evsB outB hrec
        have htask : s.task ∈ seqsTasks rest := (seqsSlots_mem (hInvB.2 _ hB)).2
        exact (hdisj (mem_heads_sub hhead) htask).elim

/-- At the end of a stage iteration, `sequence_depend` holds exactly the
submission ids of the last task of each group of the last sequence. -/
theorem runSequences_last_ids (cfg : RunConfig) (c : String)
    (hNoRun : ∀ s, (cfg.statusOf s).is_running = false) :
    ∀ (seqs : List (String × List (List String))), SeqsWellformed seqs →
      (seqsTasks seqs).Nodup →
      ∀ lsq, seqs.getLast? = some lsq →
      ∀ (seqDep : List Nat) (nid nid1 : Nat) (evs : List RunEvent) (out : List Nat),
        runSequences cfg c seqDep nid seqs = .ok (nid1, evs, out) →
        submitIdsBy (fun s => decide (s.task ∈ lsq.2.filterMap List.getLast?)) evs
          = out := by
  intro seqs
  induction seqs with
  | nil => intro _ _ lsq hlsq; cases hlsq
  | cons sq rest ih =>
    intro hwf hNodup lsq hlsq seqDep nid nid1 evs out h
    obtain ⟨hemp, hgne⟩ := hwf sq (List.mem_cons_self _ _)
    rw [runSequences, if_neg hemp] at h
    cases hg : runGroups cfg c seqDep nid sq.2 with
    | error evs0 => rw [hg] at h; cases h
    | ok res =>
      obtain ⟨nidA, evsA, seqJobsA⟩ := res
      rw [hg] at h
      simp only at h
      cases hrec : runSequences cfg c seqJobsA nidA rest with
      | error evs0 => rw [hrec] at h; cases h
      | ok res2 =>
        obtain ⟨nidB, evsB, outB⟩ := res2
        rw [hrec] at h
        simp only [Except.ok.injEq, Prod.mk.injEq] at h
        obtain ⟨-, h2, h3⟩ := h
        rw [seqsTasks, List.flatMap_cons] at hNodup
        obtain ⟨hnd1, hnd2, hdisj⟩ := List.nodup_append.mp hNodup
        cases rest with
        | nil =>
          have hlsq2 : lsq = sq := by
            rw [List.getLast?_singleton] at hlsq
            exact (Option.some.injEq _ _ ▸ hlsq).symm
          rw [runSequences] at hrec
          simp only [Except.ok.injEq, Prod.mk.injEq] at hrec
          obtain ⟨-, hB2, hB3⟩ := hrec
          rw [← h2, ← h3, ← hB2, ← hB3, List.append_nil, hlsq2]
          exact runGroups_last_ids cfg c hNoRun sq.2 hnd1 hgne seqDep nid
            nidA evsA seqJobsA hg
        | cons sq2 rest2 =>
          rw [List.getLast?_cons_cons] at hlsq
          have hlsq_mem : lsq ∈ sq2 :: rest2 := getLast?_mem' hlsq
          rw [← h2, ← h3, submitIdsBy_append]
          have hInvA := runGroups_ok_inv cfg c sq.2 seqDep nid nidA evsA seqJobsA hg
          have hzero : submitIdsBy
              (fun s => decide (s.task ∈ lsq.2.filterMap List.getLast?)) evsA
              = [] := by
            refine submitIdsBy_nil_of_false (fun e he => ?_)
            have htask : (RunEvent.slot e).task ∈ sq.2.flatMap id :=
              (groupsSlots_mem (hInvA.2 e he)).2
            have hnot : (RunEvent.slot e).task ∉ lsq.2.filterMap List.getLast? :=
              fun hIn => hdisj htask
                (mem_seqsTasks_of hlsq_mem (mem_lasts_sub hIn))
            simp [hnot]
          rw [hzero, List.nil_append]
          exact ih (fun sq' hsq' => hwf sq' (List.mem_cons.mpr (Or.inr hsq')))
            hnd2 lsq hlsq seqJobsA nidA nidB evsB outB hrec

/-- One dependent-cycles iteration of the cycle loop, unfolded. -/
theorem runCyclesLoop_dep_cons (cfg : RunConfig)
    (S : List (String × List (List String))) (SD D sj : List Nat)
    (nid : Nat) (c : String) (rest : List String) :
    runCyclesLoop cfg true false S SD D sj nid (c :: rest) =
      match runSequences cfg c D nid S with
      | .error evs => .error evs
      | .ok (nid1, evs, D2) =>
        match runCyclesLoop cfg true false S SD D2 D2 nid1 rest with
        | .error evs1 => .error (evs ++ evs1)
        | .ok (nid2, evs1, out) => .ok (nid2, evs ++ evs1, out) := rfl

/-- One independent-cycles iteration of the cycle loop, unfolded: the
sequence dependency is reset to the stage baseline and the cycle's final
jobs are accumulated into `stage_jobs`. -/
theorem runCyclesLoop_ind_cons (cfg : RunConfig)
    (S : List (String × List (List String))) (SD D sj : List Nat)
    (nid : Nat) (c : String) (rest : List String) :
    runCyclesLoop cfg true true S SD D sj nid (c :: rest) =
      match runSequences cfg c SD nid S with
      | .error evs => .error evs
      | .ok (nid1, evs, D2) =>
        match runCyclesLoop cfg true true S SD D2 (sj ++ D2) nid1 rest with
        | .error evs1 => .error (evs ++ evs1)
        | .ok (nid2, evs1, out) => .ok (nid2, evs ++ evs1, out) := rfl

/-- The single pseudo-iteration of a non-`cycles` stage, unfolded. -/
theorem runCyclesLoop_single (cfg : RunConfig) (indep : Bool)
    (seqs : List (String × List (List String))) (SD D sj : List Nat)
    (nid : Nat) (st : String) :
    runCyclesLoop cfg false indep seqs SD D sj nid [st] =
      match runSequences cfg st D nid seqs with
      | .error evs => .error evs
      | .ok (nid1, evs, D2) => .ok (nid1, evs ++ [], D2) := rfl

/-- Dependent cycles (`indep = False`, the default): for a conflict-free
cycle loop, (1) every event belongs to one of the cycles, (2) the first
cycle's opening submissions carry the incoming dependency, and (3) for every
adjacent pair of cycles the later cycle's opening submissions carry exactly
the final job ids of the earlier cycle — a strictly ordered chain. -/
theorem runCyclesDep (cfg : RunConfig)
    (hNoRun : ∀ s, (cfg.statusOf s).is_running = false)
    (S : List (String × List (List String)))
    (hwf : SeqsWellformed S) (hnd : (seqsTasks S).Nodup) (hSne : S ≠ []) :
    ∀ (cs : List String), cs.Nodup →
      ∀ (SD D sj : List Nat) (nid nid1 : Nat) (evs : List RunEvent)
        (out : List Nat),
        runCyclesLoop cfg true false S SD D sj nid cs = .ok (nid1, evs, out) →
        (∀ e ∈ evs, (RunEvent.slot e).cycle ∈ cs) ∧
        (∀ (c : String) (rest2 : List String), cs = c :: rest2 →
          ∀ (s : Slot) (jid : Nat) (d : List Nat),
            RunEvent.submit s jid d ∈ evs → s.cycle = c →
            s.task ∈ firstGroupTasks S → d = D) ∧
        (∀ ab ∈ cs.zip cs.tail,
          ∀ (s : Slot) (jid : Nat) (d : List Nat),
            RunEvent.submit s jid d ∈ evs → s.cycle = ab.2 →
            s.task ∈ firstGroupTasks S →
            d = submitIdsBy (fun sl => sl.cycle == ab.1 &&
                  decide (sl.task ∈ lastGroupTasks S)) evs) := by
  cases S with
  | nil => exact absurd rfl hSne
  | cons sq srest =>
    have hSne2 : sq :: srest ≠ [] := by simp
    have hgl : (sq :: srest).getLast? = some ((sq :: srest).getLast hSne2) :=
      List.getLast?_eq_getLast_of_ne_nil hSne2
    have hlast : lastGroupTasks (sq :: srest) =
        ((sq :: srest).getLast hSne2).2.filterMap List.getLast? := by
      simp only [lastGroupTasks, hgl]
    intro cs
    induction cs with
    | nil =>
      intro _ SD D sj nid nid1 evs out h
      rw [runCyclesLoop] at h
      simp only [Except.ok.injEq, Prod.mk.injEq] at h
      obtain ⟨-, h2, -⟩ := h
      refine ⟨?_, ?_, ?_⟩
      · intro e he; rw [← h2] at he; exact absurd he (by simp)
      · intro c rest2 hEq; cases hEq
      · intro ab hab; exact absurd hab (by simp)
    | cons c rest ih =>
      intro hndcs SD D sj nid nid1 evs out h
      obtain ⟨hcr, hndrest⟩ := List.nodup_cons.mp hndcs
      rw [runCyclesLoop_dep_cons] at h
      cases hseq : runSequences cfg c D nid (sq :: srest) with
      | error e0 => rw [hseq] at h; cases h
      | ok resA =>
        obtain ⟨nidA, evsA, DA⟩ := resA
        rw [hseq] at h
        simp only at h
        cases hrec : runCyclesLoop cfg true false (sq :: srest) SD DA DA nidA rest with
        | error e0 => rw [hrec] at h; cases h
        | ok resB =>
          obtain ⟨nidB, evsB, outB⟩ := resB
          rw [hrec] at h
          simp only [Except.ok.injEq, Prod.mk.injEq] at h
          obtain ⟨-, h2, -⟩ := h
          subst h2
          obtain ⟨ih1, ih2, ih3⟩ := ih hndrest SD DA DA nidA nidB evsB outB hrec
          have hInvA := runSequences_ok_inv cfg c (sq :: srest) D nid nidA evsA DA hseq
          have hcycA : ∀ e ∈ evsA, (RunEvent.slot e).cycle = c :=
            fun e he => (seqsSlots_mem (hInvA.2 e he)).1
          have hDA : submitIdsBy (fun sl => sl.cycle == c &&
              decide (sl.task ∈ lastGroupTasks (sq :: srest))) (evsA ++ evsB)
              = DA := by
            rw [submitIdsBy_append]
            have hB0 : submitIdsBy (fun sl => sl.cycle == c &&
                decide (sl.task ∈ lastGroupTasks (sq :: srest))) evsB = [] := by
              refine submitIdsBy_nil_of_false (fun e he => ?_)
              have hcyc := ih1 e he
              have hne2 : (RunEvent.slot e).cycle ≠ c :=
                fun hEq => hcr (hEq ▸ hcyc)
              rw [beq_eq_false_iff_ne.mpr hne2, Bool.false_and]
            have hA0 : submitIdsBy (fun sl => sl.cycle == c &&
                decide (sl.task ∈ lastGroupTasks (sq :: srest))) evsA =
                submitIdsBy (fun sl =>
                  decide (sl.task ∈
                    ((sq :: srest).getLast hSne2).2.filterMap List.getLast?))
                  evsA := by
              refine submitIdsBy_congr (fun e he => ?_)
              rw [hcycA e he, hlast]
              simp
            rw [hB0, hA0, List.append_nil]
            exact runSequences_last_ids cfg c hNoRun (sq :: srest) hwf hnd _
              hgl D nid nidA evsA DA hseq
          refine ⟨?_, ?_, ?_⟩
          · intro e he
            rcases List.mem_append.mp he with hA | hB
            · rw [hcycA e hA]; exact List.mem_cons_self _ _
            · exact List.mem_cons.mpr (Or.inr (ih1 e hB))
          · intro c' rest2' hEq s jid d hmem hcyc hfirst
            injection hEq with hc hr
            subst hc
            rcases List.mem_append.mp hmem with hA | hB
            · exact runSequences_head_deps cfg c hNoRun sq srest hwf hnd D nid
                nidA evsA DA hseq s jid d hA hfirst
            · have hcm := ih1 _ hB
              rw [RunEvent.slot] at hcm
              rw [hcyc] at hcm
              exact absurd hcm hcr
          · intro ab hab s jid d hmem hcyc hfirst
            cases rest with
            | nil => exact absurd hab (by simp)
            | cons c2 rest2 =>
              have hc2 : c ≠ c2 := fun hEq => hcr (hEq ▸ List.mem_cons_self _ _)
              rcases List.mem_cons.mp hab with habh | habt
              · subst habh
                have hB : RunEvent.submit s jid d ∈ evsB := by
                  rcases List.mem_append.mp hmem with hA | hB
                  · have := hcycA _ hA
                    rw [RunEvent.slot] at this
                    rw [hcyc] at this
                    exact absurd this.symm hc2
                  · exact hB
                rw [ih2 c2 rest2 rfl s jid d hB hcyc hfirst]
                exact hDA.symm
              · have hab1 : ab.1 ∈ c2 :: rest2 := (List.of_mem_zip habt).1
                have hab2 : ab.2 ∈ rest2 := (List.of_mem_zip habt).2
                have hB : RunEvent.submit s jid d ∈ evsB := by
                  rcases List.mem_append.mp hmem with hA | hB
                  · have hcm := hcycA _ hA
                    rw [RunEvent.slot] at hcm
                    rw [hcyc] at hcm
                    have : ab.2 ∈ c2 :: rest2 := List.mem_cons.mpr (Or.inr hab2)
                    exact absurd (hcm ▸ this) hcr
                  · exact hB
                rw [ih3 ab habt s jid d hB hcyc hfirst]
                rw [submitIdsBy_append]
                have hA0 : submitIdsBy (fun sl => sl.cycle == ab.1 &&
                    decide (sl.task ∈ lastGroupTasks (sq :: srest))) evsA = [] := by
                  refine submitIdsBy_nil_of_false (fun e he => ?_)
                  have hcycc := hcycA e he
                  have hne2 : (RunEvent.slot e).cycle ≠ ab.1 := by
                    rw [hcycc]
                    exact fun hEq => hcr (hEq ▸ hab1)
                  rw [beq_eq_false_iff_ne.mpr hne2, Bool.false_and]
                rw [hA0, List.nil_append]

/-- Independent cycles (`indep = True`): for a conflict-free cycle loop,
(1) every event belongs to one of the cycles, (2) *every* cycle's opening
submissions carry the same stage baseline dependency, and (3) the loop's
`stage_jobs` output accumulates every cycle's final job ids, in cycle
order. -/
theorem runCyclesInd (cfg : RunConfig)
    (hNoRun : ∀ s, (cfg.statusOf s).is_running = false)
    (S : List (String × List (List String)))
    (hwf : SeqsWellformed S) (hnd : (seqsTasks S).Nodup) (hSne : S ≠ []) :
    ∀ (cs : List String), cs.Nodup →
      ∀ (SD D sj : List Nat) (nid nid1 : Nat) (evs : List RunEvent)
        (out : List Nat),
        runCyclesLoop cfg true true S SD D sj nid cs = .ok (nid1, evs, out) →
        (∀ e ∈ evs, (RunEvent.slot e).cycle ∈ cs) ∧
        (∀ c ∈ cs, ∀ (s : Slot) (jid : Nat) (d : List Nat),
          RunEvent.submit s jid d ∈ evs → s.cycle = c →
          s.task ∈ firstGroupTasks S → d = SD) ∧
        out = sj ++ (cs.map (fun c => submitIdsBy (fun sl => sl.cycle == c &&
            decide (sl.task ∈ lastGroupTasks S)) evs)).flatten := by
  cases S with
  | nil => exact absurd rfl hSne
  | cons sq srest =>
    have hSne2 : sq :: srest ≠ [] := by simp
    have hgl : (sq :: srest).getLast? = some ((sq :: srest).getLast hSne2) :=
      List.getLast?_eq_getLast_of_ne_nil hSne2
    have hlast : lastGroupTasks (sq :: srest) =
        ((sq :: srest).getLast hSne2).2.filterMap List.getLast? := by
      simp only [lastGroupTasks, hgl]
    intro cs
    induction cs with
    | nil =>
      intro _ SD D sj nid nid1 evs out h
      rw [runCyclesLoop] at h
      simp only [Except.ok.injEq, Prod.mk.injEq] at h
      obtain ⟨-, h2, h3⟩ := h
      refine ⟨?_, ?_, ?_⟩
      · intro e he; rw [← h2] at he; exact absurd he (by simp)
      · intro c hc; exact absurd hc (by simp)
      · rw [← h3]; simp
    | cons c rest ih =>
      intro hndcs SD D sj nid nid1 evs out h
      obtain ⟨hcr, hndrest⟩ := List.nodup_cons.mp hndcs
      rw [runCyclesLoop_ind_cons] at h
      cases hseq : runSequences cfg c SD nid (sq :: srest) with
      | error e0 => rw [hseq] at h; cases h
      | ok resA =>
        obtain ⟨nidA, evsA, DA⟩ := resA
        rw [hseq] at h
        simp only at h
        cases hrec : runCyclesLoop cfg true true (sq :: srest) SD DA (sj ++ DA)
            nidA rest with
        | error e0 => rw [hrec] at h; cases h
        | ok resB =>
          obtain ⟨nidB, evsB, outB⟩ := resB
          rw [hrec] at h
          simp only [Except.ok.injEq, Prod.mk.injEq] at h
          obtain ⟨-, h2, h3⟩ := h
          subst h2
          subst h3
          obtain ⟨ih1, ih2, ih3⟩ := ih hndrest SD DA (sj ++ DA) nidA nidB evsB outB hrec
          have hInvA := runSequences_ok_inv cfg c (sq :: srest) SD nid nidA evsA DA hseq
          have hcycA : ∀ e ∈ evsA, (RunEvent.slot e).cycle = c :=
            fun e he => (seqsSlots_mem (hInvA.2 e he)).1
          have hDA : submitIdsBy (fun sl => sl.cycle == c &&
              decide (sl.task ∈ lastGroupTasks (sq :: srest))) (evsA ++ evsB)
              = DA := by
            rw [submitIdsBy_append]
            have hB0 : submitIdsBy (fun sl => sl.cycle == c &&
                decide (sl.task ∈ lastGroupTasks (sq :: srest))) evsB = [] := by
              refine submitIdsBy_nil_of_false (fun e he => ?_)
              have hcyc := ih1 e he
              have hne2 : (RunEvent.slot e).cycle ≠ c :=
                fun hEq => hcr (hEq ▸ hcyc)
              rw [beq_eq_false_iff_ne.mpr hne2, Bool.false_and]
            have hA0 : submitIdsBy (fun sl => sl.cycle == c &&
                decide (sl.task ∈ lastGroupTasks (sq :: srest))) evsA =
                submitIdsBy (fun sl =>
                  decide (sl.task ∈
                    ((sq :: srest).getLast hSne2).2.filterMap List.getLast?))
                  evsA := by
              refine submitIdsBy_congr (fun e he => ?_)
              rw [hcycA e he, hlast]
              simp
            rw [hB0, hA0, List.append_nil]
            exact runSequences_last_ids cfg c hNoRun (sq :: srest) hwf hnd _
              hgl SD nid nidA evsA DA hseq
          refine ⟨?_, ?_, ?_⟩
          · intro e he
            rcases List.mem_append.mp he with hA | hB
            · rw [hcycA e hA]; exact List.mem_cons_self _ _
            · exact List.mem_cons.mpr (Or.inr (ih1 e hB))
          · intro c' hc' s jid d hmem hcyc hfirst
            rcases List.mem_cons.mp hc' with h0 | h0
            · subst h0
              rcases List.mem_append.mp hmem with hA | hB
              · exact runSequences_head_deps cfg c' hNoRun sq srest hwf hnd SD
                  nid nidA evsA DA hseq s jid d hA hfirst
              · have hcm := ih1 _ hB
                rw [RunEvent.slot] at hcm
                rw [hcyc] at hcm
                exact absurd hcm hcr
            · rcases List.mem_append.mp hmem with hA | hB
              · have hcm := hcycA _ hA
                rw [RunEvent.slot] at hcm
                rw [hcyc] at hcm
                exact absurd (hcm ▸ h0) hcr
              · exact ih2 c' h0 s jid d hB hcyc hfirst
          · have hmapEq : rest.map (fun c' => submitIdsBy
                (fun sl => sl.cycle == c' &&
                  decide (sl.task ∈ lastGroupTasks (sq :: srest)))
                (evsA ++ evsB)) =
              rest.map (fun c' => submitIdsBy
                (fun sl => sl.cycle == c' &&
                  decide (sl.task ∈ lastGroupTasks (sq :: srest))) evsB) := by
              refine List.map_congr_left (fun c' hc' => ?_)
              rw [submitIdsBy_append]
              have hA0 : submitIdsBy (fun sl => sl.cycle == c' &&
                  decide (sl.task ∈ lastGroupTasks (sq :: srest))) evsA = [] := by
                refine submitIdsBy_nil_of_false (fun e he => ?_)
                have hcycc := hcycA e he
                have hne2 : (RunEvent.slot e).cycle ≠ c' := by
                  rw [hcycc]
                  exact fun hEq => hcr (hEq ▸ hc')
                rw [beq_eq_false_iff_ne.mpr hne2, Bool.false_and]
              rw [hA0, List.nil_append]
            rw [List.map_cons, List.flatten_cons, hDA, hmapEq, ih3,
              List.append_assoc]

/-- A conflict-free prolog/cycles/epilog run decomposes into the three
stage traces, with the prolog's final jobs seeding the cycle loop and the
cycle loop's `stage_jobs` seeding the epilog. -/
theorem run3_decompose (cfg : RunConfig)
    (P S E : List (String × List (List String))) (cs : List String) (m : Bool)
    (hNoRun : ∀ s, (cfg.statusOf s).is_running = false)
    (hPne : P ≠ []) (hSne : S ≠ []) (hEne : E ≠ []) :
    ∃ (nidP : Nat) (evsP : List RunEvent) (outP : List Nat)
      (nidC : Nat) (evsC : List RunEvent) (outC : List Nat)
      (nidE : Nat) (evsE : List RunEvent) (outE : List Nat),
      runSequences cfg "prolog" [] 0 P = .ok (nidP, evsP, outP) ∧
      runCyclesLoop cfg true m S outP outP [] nidP cs = .ok (nidC, evsC, outC) ∧
      runSequences cfg "epilog" outC nidC E = .ok (nidE, evsE, outE) ∧
      (workflowRun cfg [("prolog", P), ("cycles", S), ("epilog", E)] cs m).events
        = evsP ++ (evsC ++ evsE) := by
  cases hseqP : runSequences cfg "prolog" [] 0 P with
  | error e0 =>
    exact ((runSequences_err_inv cfg "prolog" P [] 0 e0 hseqP).elim_noRun
      hNoRun).elim
  | ok resP =>
    obtain ⟨nidP, evsP, outP⟩ := resP
    cases hcyc : runCyclesLoop cfg true m S outP outP [] nidP cs with
    | error e0 =>
      exact ((runCyclesLoop_err_inv cfg true m S cs outP outP [] nidP e0
        hcyc).elim_noRun hNoRun).elim
    | ok resC =>
      obtain ⟨nidC, evsC, outC⟩ := resC
      cases hseqE : runSequences cfg "epilog" outC nidC E with
      | error e0 =>
        exact ((runSequences_err_inv cfg "epilog" E outC nidC e0
          hseqE).elim_noRun hNoRun).elim
      | ok resE =>
        obtain ⟨nidE, evsE, outE⟩ := resE
        refine ⟨nidP, evsP, outP, nidC, evsC, outC, nidE, evsE, outE,
          rfl, hcyc, hseqE, ?_⟩
        rw [workflowRun]
        rw [runStages, if_neg (fun hc => hPne hc)]
        simp only
        rw [show ("prolog" == "cycles") = false from rfl]
        rw [if_neg Bool.false_ne_true]
        rw [runCyclesLoop_single, hseqP]
        simp only
        rw [runStages, if_neg (fun hc => hSne hc)]
        simp only
        rw [show ("cycles" == "cycles") = true from rfl]
        rw [if_pos rfl, hcyc]
        simp only
        rw [runStages, if_neg (fun hc => hEne hc)]
        simp only
        rw [show ("epilog" == "cycles") = false from rfl]
        rw [if_neg Bool.false_ne_true]
        rw [runCyclesLoop_single, hseqE]
        simp only
        rw [runStages]
        simp [List.append_nil]

theorem submitIdsBy_cycle_ne {c' : String} {evs0 : List RunEvent}
    (h : ∀ e ∈ evs0, (RunEvent.slot e).cycle ≠ c') (q : Slot → Bool) :
    submitIdsBy (fun sl => sl.cycle == c' && q sl) evs0 = [] :=
  submitIdsBy_nil_of_false (fun e he => by
    rw [beq_eq_false_iff_ne.mpr (h e he), Bool.false_and])

/-- C2: during `Workflow.run` over a cycles stage with more than one cycle
and no status conflict, with stages `prolog → cycles → epilog`:
(dependent, the default) for every adjacent pair of cycles, the dependency
list passed to the later cycle's opening submissions (first task of each
group of the first sequence) equals the final job ids of the earlier cycle
(last task of each group of the last sequence) — a strictly ordered chain;
(independent) every cycle's opening submissions instead receive the same
baseline — the prolog stage's final job ids — and the epilog's opening
submissions receive the concatenation of *every* cycle's final job ids, not
only the last cycle's. -/
theorem cycles_dependency_propagation (cfg : RunConfig)
    (P S E : List (String × List (List String))) (cs : List String)
    (hNoRun : ∀ s, (cfg.statusOf s).is_running = false)
    (hPwf : SeqsWellformed P) (hSwf : SeqsWellformed S) (hEwf : SeqsWellformed E)
    (hPnd : (seqsTasks P).Nodup) (hSnd : (seqsTasks S).Nodup)
    (hEnd : (seqsTasks E).Nodup)
    (hPne : P ≠ []) (hSne : S ≠ []) (hEne : E ≠ [])
    (hcs : cs.Nodup) (hlen : 1 < cs.length)
    (hpr : "prolog" ∉ cs) (hep : "epilog" ∉ cs) :
    (∀ ab ∈ cs.zip cs.tail, ∀ (s : Slot) (jid : Nat) (d : List Nat),
      RunEvent.submit s jid d ∈ (workflowRun cfg
        [("prolog", P), ("cycles", S), ("epilog", E)] cs false).events →
      s.cycle = ab.2 → s.task ∈ firstGroupTasks S →
      d = cycleFinalJobIds S ab.1 (workflowRun cfg
        [("prolog", P), ("cycles", S), ("epilog", E)] cs false).events) ∧
    (∀ c ∈ cs, ∀ (s : Slot) (jid : Nat) (d : List Nat),
      RunEvent.submit s jid d ∈ (workflowRun cfg
        [("prolog", P), ("cycles", S), ("epilog", E)] cs true).events →
      s.cycle = c → s.task ∈ firstGroupTasks S →
      d = cycleFinalJobIds P "prolog" (workflowRun cfg
        [("prolog", P), ("cycles", S), ("epilog", E)] cs true).events) ∧
    (∀ (s : Slot) (jid : Nat) (d : List Nat),
      RunEvent.submit s jid d ∈ (workflowRun cfg
        [("prolog", P), ("cycles", S), ("epilog", E)] cs true).events →
      s.cycle = "epilog" → s.task ∈ firstGroupTasks E →
      d = (cs.map (fun c => cycleFinalJobIds S c (workflowRun cfg
        [("prolog", P), ("cycles", S), ("epilog", E)] cs true).events)).flatten) := by
  refine ⟨?_, ?_, ?_⟩
  · -- dependent chain
    obtain ⟨nidP, evsP, outP, nidC, evsC, outC, nidE, evsE, outE,
      hseqP, hcyc, hseqE, hW⟩ :=
      run3_decompose cfg P S E cs false hNoRun hPne hSne hEne
    obtain ⟨d1, d2, d3⟩ :=
      runCyclesDep cfg hNoRun S hSwf hSnd hSne cs hcs outP outP [] nidP nidC
        evsC outC hcyc
    have hInvP := runSequences_ok_inv cfg "prolog" P [] 0 nidP evsP outP hseqP
    have hInvE := runSequences_ok_inv cfg "epilog" E outC nidC nidE evsE outE hseqE
    have hTagP : ∀ e ∈ evsP, (RunEvent.slot e).cycle = "prolog" :=
      fun e he => (seqsSlots_mem (hInvP.2 e he)).1
    have hTagE : ∀ e ∈ evsE, (RunEvent.slot e).cycle = "epilog" :=
      fun e he => (seqsSlots_mem (hInvE.2 e he)).1
    intro ab hab s jid d hmem hcyc2 hfirst
    have hab1cs : ab.1 ∈ cs := (List.of_mem_zip hab).1
    have hab2cs : ab.2 ∈ cs :=
      List.tail_subset cs (List.of_mem_zip hab).2
    rw [hW] at hmem
    have hC : RunEvent.submit s jid d ∈ evsC := by
      rcases List.mem_append.mp hmem with hP | hCE
      · have hcp := hTagP _ hP
        rw [RunEvent.slot] at hcp
        rw [hcyc2] at hcp
        exact absurd (hcp ▸ hab2cs) hpr
      rcases List.mem_append.mp hCE with hc | hE
      · exact hc
      · have hce := hTagE _ hE
        rw [RunEvent.slot] at hce
        rw [hcyc2] at hce
        exact absurd (hce ▸ hab2cs) hep
    rw [d3 ab hab s jid d hC hcyc2 hfirst]
    rw [cycleFinalJobIds, hW, submitIdsBy_append, submitIdsBy_append]
    have hzP : submitIdsBy (fun sl => sl.cycle == ab.1 &&
        decide (sl.task ∈ lastGroupTasks S)) evsP = [] :=
      submitIdsBy_cycle_ne
        (fun e he hEq => hpr (by rw [← hTagP e he, hEq]; exact hab1cs)) _
    have hzE : submitIdsBy (fun sl => sl.cycle == ab.1 &&
        decide (sl.task ∈ lastGroupTasks S)) evsE = [] :=
      submitIdsBy_cycle_ne
        (fun e he hEq => hep (by rw [← hTagE e he, hEq]; exact hab1cs)) _
    rw [hzP, hzE, List.nil_append, List.append_nil]
  · -- independent baseline
    obtain ⟨nidP, evsP, outP, nidC, evsC, outC, nidE, evsE, outE,
      hseqP, hcyc, hseqE, hW⟩ :=
      run3_decompose cfg P S E cs true hNoRun hPne hSne hEne
    obtain ⟨i1, i2, i3⟩ :=
      runCyclesInd cfg hNoRun S hSwf hSnd hSne cs hcs outP outP [] nidP nidC
        evsC outC hcyc
    have hInvP := runSequences_ok_inv cfg "prolog" P [] 0 nidP evsP outP hseqP
    have hInvE := runSequences_ok_inv cfg "epilog" E outC nidC nidE evsE outE hseqE
    have hTagP : ∀ e ∈ evsP, (RunEvent.slot e).cycle = "prolog" :=
      fun e he => (seqsSlots_mem (hInvP.2 e he)).1
    have hTagE : ∀ e ∈ evsE, (RunEvent.slot e).cycle = "epilog" :=
      fun e he => (seqsSlots_mem (hInvE.2 e he)).1
    have hglP : P.getLast? = some (P.getLast hPne) :=
      List.getLast?_eq_getLast_of_ne_nil hPne
    have hlastP : lastGroupTasks P = (P.getLast hPne).2.filterMap List.getLast? := by
      simp only [lastGroupTasks, hglP]
    have hPfinal : submitIdsBy (fun sl => sl.cycle == "prolog" &&
        decide (sl.task ∈ lastGroupTasks P)) evsP = outP := by
      have hcg : submitIdsBy (fun sl => sl.cycle == "prolog" &&
          decide (sl.task ∈ lastGroupTasks P)) evsP =
          submitIdsBy (fun sl =>
            decide (sl.task ∈ (P.getLast hPne).2.filterMap List.getLast?)) evsP := by
        refine submitIdsBy_congr (fun e he => ?_)
        rw [hTagP e he, hlastP]
        simp
      rw [hcg]
      exact runSequences_last_ids cfg "prolog" hNoRun P hPwf hPnd _ hglP
        [] 0 nidP evsP outP hseqP
    intro c hc s jid d hmem hcyc2 hfirst
    rw [hW] at hmem
    have hC : RunEvent.submit s jid d ∈ evsC := by
      rcases List.mem_append.mp hmem with hP | hCE
      · have hcp := hTagP _ hP
        rw [RunEvent.slot] at hcp
        rw [hcyc2] at hcp
        exact absurd (hcp ▸ hc) hpr
      rcases List.mem_append.mp hCE with hc2 | hE
      · exact hc2
      · have hce := hTagE _ hE
        rw [RunEvent.slot] at hce
        rw [hcyc2] at hce
        exact absurd (hce ▸ hc) hep
    rw [i2 c hc s jid d hC hcyc2 hfirst]
    rw [cycleFinalJobIds, hW, submitIdsBy_append, submitIdsBy_append]
    have hzC : submitIdsBy (fun sl => sl.cycle == "prolog" &&
        decide (sl.task ∈ lastGroupTasks P)) evsC = [] :=
      submitIdsBy_cycle_ne
        (fun e he hEq => absurd (i1 e he) (by rw [hEq]; exact hpr)) _
    have hzE : submitIdsBy (fun sl => sl.cycle == "prolog" &&
        decide (sl.task ∈ lastGroupTasks P)) evsE = [] :=
      submitIdsBy_cycle_ne (fun e he hEq => by
        rw [hTagE e he] at hEq
        exact absurd hEq (by decide)) _
    rw [hzC, hzE, hPfinal, List.append_nil, List.append_nil]
  · -- independent epilog union
    obtain ⟨nidP, evsP, outP, nidC, evsC, outC, nidE, evsE, outE,
      hseqP, hcyc, hseqE, hW⟩ :=
      run3_decompose cfg P S E cs true hNoRun hPne hSne hEne
    obtain ⟨i1, i2, i3⟩ :=
      runCyclesInd cfg hNoRun S hSwf hSnd hSne cs hcs outP outP [] nidP nidC
        evsC outC hcyc
    have hInvP := runSequences_ok_inv cfg "prolog" P [] 0 nidP evsP outP hseqP
    have hInvE := runSequences_ok_inv cfg "epilog" E outC nidC nidE evsE outE hseqE
    have hTagP : ∀ e ∈ evsP, (RunEvent.slot e).cycle = "prolog" :=
      fun e he => (seqsSlots_mem (hInvP.2 e he)).1
    have hTagE : ∀ e ∈ evsE, (RunEvent.slot e).cycle = "epilog" :=
      fun e he => (seqsSlots_mem (hInvE.2 e he)).1
    intro s jid d hmem hcyc2 hfirst
    rw [hW] at hmem
    have hE : RunEvent.submit s jid d ∈ evsE := by
      rcases List.mem_append.mp hmem with hP | hCE
      · have hcp := hTagP _ hP
        rw [RunEvent.slot] at hcp
        rw [hcyc2] at hcp
        exact absurd hcp (by decide)
      rcases List.mem_append.mp hCE with hc2 | hE
      · have hcc := i1 _ hc2
        rw [RunEvent.slot] at hcc
        rw [hcyc2] at hcc
        exact absurd hcc hep
      · exact hE
    cases E with
    | nil => exact absurd rfl hEne
    | cons eq erest =>
      rw [runSequences_head_deps cfg "epilog" hNoRun eq erest hEwf hEnd outC
        nidC nidE evsE outE hseqE s jid d hE hfirst]
      rw [i3, List.nil_append]
      congr 1
      refine List.map_congr_left (fun c' hc' => ?_)
      rw [cycleFinalJobIds, hW, submitIdsBy_append, submitIdsBy_append]
      have hzP2 : submitIdsBy (fun sl => sl.cycle == c' &&
          decide (sl.task ∈ lastGroupTasks S)) evsP = [] :=
        submitIdsBy_cycle_ne
          (fun e he hEq => hpr (by rw [← hTagP e he, hEq]; exact hc')) _
      have hzE2 : submitIdsBy (fun sl => sl.cycle == c' &&
          decide (sl.task ∈ lastGroupTasks S)) evsE = [] :=
        submitIdsBy_cycle_ne
          (fun e he hEq => hep (by rw [← hTagE e he, hEq]; exact hc')) _
      rw [hzP2, hzE2, List.nil_append, List.append_nil]

/-- C2 witness: the dependency-propagation theorem applied to a concrete
three-stage workflow (prolog task `A`, cycles task `B`, epilog task `C`)
over the two cycles `c1`, `c2`; every side condition holds there. -/
theorem cycles_dependency_propagation_witness :
    (1 < c2cs.length ∧ "prolog" ∉ c2cs ∧ "epilog" ∉ c2cs) ∧
    ((∀ ab ∈ c2cs.zip c2cs.tail, ∀ (s : Slot) (jid : Nat) (d : List Nat),
      RunEvent.submit s jid d ∈ (workflowRun c2cfg
        [("prolog", c2P), ("cycles", c2S), ("epilog", c2E)] c2cs false).events →
      s.cycle = ab.2 → s.task ∈ firstGroupTasks c2S →
      d = cycleFinalJobIds c2S ab.1 (workflowRun c2cfg
        [("prolog", c2P), ("cycles", c2S), ("epilog", c2E)] c2cs false).events) ∧
     (∀ c ∈ c2cs, ∀ (s : Slot) (jid : Nat) (d : List Nat),
      RunEvent.submit s jid d ∈ (workflowRun c2cfg
        [("prolog", c2P), ("cycles", c2S), ("epilog", c2E)] c2cs true).events →
      s.cycle = c → s.task ∈ firstGroupTasks c2S →
      d = cycleFinalJobIds c2P "prolog" (workflowRun c2cfg
        [("prolog", c2P), ("cycles", c2S), ("epilog", c2E)] c2cs true).events) ∧
     (∀ (s : Slot) (jid : Nat) (d : List Nat),
      RunEvent.submit s jid d ∈ (workflowRun c2cfg
        [("prolog", c2P), ("cycles", c2S), ("epilog", c2E)] c2cs true).events →
      s.cycle = "epilog" → s.task ∈ firstGroupTasks c2E →
      d = (c2cs.map (fun c => cycleFinalJobIds c2S c (workflowRun c2cfg
        [("prolog", c2P), ("cycles", c2S), ("epilog", c2E)] c2cs true).events)).flatten)) :=
  ⟨⟨by decide, by decide, by decide⟩,
   cycles_dependency_propagation c2cfg c2P c2S c2E c2cs
     (fun _ => rfl)
     (by unfold SeqsWellformed c2P; decide)
     (by unfold SeqsWellformed c2S; decide)
     (by unfold SeqsWellformed c2E; decide)
     (by decide) (by decide) (by decide)
     (by decide) (by decide) (by decide)
     (by decide) (by decide) (by decide) (by decide)⟩

/-- `addTasks` over an appended list runs the two halves in sequence. -/
theorem addTasks_append (l1 l2 : List String) : ∀ acc,
    addTasks acc (l1 ++ l2) = match addTasks acc l1 with
      | .error e => .error e
      | .ok acc1 => addTasks acc1 l2 := by
  induction l1 with
  | nil => intro acc; rfl
  | cons t rest ih =>
    intro acc
    rw [List.cons_append]
    simp only [addTasks]
    by_cases h : t ∈ acc
    · simp only [if_pos h]
    · simp only [if_neg h]
      exact ih (acc ++ [t])

/-- `addTasks` succeeds exactly when the accumulated and incoming names are
jointly duplicate-free. -/
theorem addTasks_ok_iff : ∀ (l acc : List String), acc.Nodup →
    ((∃ r, addTasks acc l = .ok r) ↔ (acc ++ l).Nodup) := by
  intro l
  induction l with
  | nil =>
    intro acc h
    simp [addTasks, h]
  | cons t rest ih =>
    intro acc h
    simp only [addTasks]
    by_cases hm : t ∈ acc
    · rw [if_pos hm]
      constructor
      · rintro ⟨r, hr⟩
        exact Except.noConfusion hr
      · intro hnd
        exact absurd ((List.nodup_append.mp hnd).2.2 hm (List.mem_cons_self t rest))
          (fun h => h)
    · rw [if_neg hm]
      have hnd1 : (acc ++ [t]).Nodup := by
        rw [List.nodup_append]
        refine ⟨h, List.nodup_singleton t, ?_⟩
        intro a ha hb
        rw [List.mem_singleton] at hb
        exact hm (hb ▸ ha)
      rw [ih (acc ++ [t]) hnd1, ← List.append_cons]

/-- When `addTasks` fails, the error names a task occurring at least twice
in the accumulated-plus-incoming name list. -/
theorem addTasks_error_count : ∀ (l acc : List String) (e : String),
    addTasks acc l = .error e →
    ∃ t, e = "Duplicate tasks not allowed: " ++ t ∧
      2 ≤ (acc ++ l).count t := by
  intro l
  induction l with
  | nil =>
    intro acc e h
    exact Except.noConfusion h
  | cons t rest ih =>
    intro acc e h
    simp only [addTasks] at h
    by_cases hm : t ∈ acc
    · rw [if_pos hm] at h
      cases h
      refine ⟨t, rfl, ?_⟩
      have h1 : 0 < acc.count t := List.count_pos_iff.mpr hm
      have h2 : (t :: rest).count t = rest.count t + 1 := List.count_cons_self t rest
      rw [List.count_append, h2]
      omega
    · rw [if_neg hm] at h
      obtain ⟨t', he, hc⟩ := ih (acc ++ [t]) e h
      refine ⟨t', he, ?_⟩
      rw [List.append_cons]
      exact hc

/-- The token loop threads `all_tasks` exactly as `addTasks` over the
expanded tokens. -/
theorem exAll_processTokens (groups : List (String × String)) :
    ∀ (toks acc : List String),
    exAll (processTokens groups acc toks) =
      addTasks acc (toks.flatMap (expandToken groups)) := by
  intro toks
  induction toks with
  | nil => intro acc; rfl
  | cons tok rest ih =>
    intro acc
    rw [List.flatMap_cons, addTasks_append]
    cases hg : addTasks acc (expandToken groups tok) with
    | error e => simp only [processTokens, hg, exAll]
    | ok acc1 =>
      simp only [processTokens, hg]
      rw [← ih acc1]
      cases hr : processTokens groups acc1 rest with
      | error e => rfl
      | ok p =>
        obtain ⟨gs, all2⟩ := p
        rfl

/-- The sub-stage loop threads `all_tasks` exactly as `addTasks` over the
expansion of its token lines. -/
theorem exAll_processSubstages (groups : List (String × String)) :
    ∀ (subs : List (String × String)) (acc : List String),
    exAll (processSubstages groups acc subs) =
      addTasks acc (subs.flatMap (fun sub =>
        (splitCommas sub.2).flatMap (expandToken groups))) := by
  intro subs
  induction subs with
  | nil => intro acc; rfl
  | cons sl rest ih =>
    obtain ⟨sub, line⟩ := sl
    intro acc
    rw [List.flatMap_cons, addTasks_append,
      ← exAll_processTokens groups (splitCommas line) acc]
    cases ht : processTokens groups acc (splitCommas line) with
    | error e => simp only [processSubstages, ht, exAll]
    | ok p =>
      obtain ⟨gs, all1⟩ := p
      have hx : exAll (Except.ok (gs, all1)) = Except.ok all1 := rfl
      simp only [processSubstages, ht, hx]
      rw [← ih all1]
      cases hs : processSubstages groups all1 rest with
      | error e => rfl
      | ok q =>
        obtain ⟨ss, all2⟩ := q
        rfl

/-- The stage loop threads `all_tasks` exactly as `addTasks` over the full
graph expansion. -/
theorem exAll_processStages (groups : List (String × String)) :
    ∀ (stages : List (String × List (String × String))) (acc : List String),
    exAll (processStages groups acc stages) =
      addTasks acc (stages.flatMap (fun st => st.2.flatMap (fun sub =>
        (splitCommas sub.2).flatMap (expandToken groups)))) := by
  intro stages
  induction stages with
  | nil => intro acc; rfl
  | cons sl rest ih =>
    obtain ⟨stage, subs⟩ := sl
    intro acc
    rw [List.flatMap_cons, addTasks_append,
      ← exAll_processSubstages groups subs acc]
    cases ht : processSubstages groups acc subs with
    | error e => simp only [processStages, ht, exAll]
    | ok p =>
      obtain ⟨ss, all1⟩ := p
      have hx : exAll (Except.ok (ss, all1)) = Except.ok all1 := rfl
      simp only [processStages, ht, hx]
      rw [← ih all1]
      cases hs : processStages groups all1 rest with
      | error e => rfl
      | ok q =>
        obtain ⟨st, all2⟩ := q
        rfl

/-- C8: materializing the task tree (`TaskTree.to_dict`, `src/woom/tasks.py`
lines 39-64) succeeds if and only if no task name occurs more than once in
the full expanded graph over all stages, sub-stages and group positions;
when it fails, the raised message is `Duplicate tasks not allowed: t` for a
task `t` occurring at least twice.  (The `functools.cache` decorator makes
the detection lazy on first materialization and memoizes it; the computation
itself is pure, which is what is formalized.) -/
theorem tasktree_duplicate_detection
    (stages : List (String × List (String × String)))
    (groups : List (String × String)) :
    ((∃ tt, toDict stages groups = Except.ok tt) ↔
      (expandAllTasks stages groups).Nodup) ∧
    ∀ e, toDict stages groups = Except.error e →
      ∃ t, e = "Duplicate tasks not allowed: " ++ t ∧
        2 ≤ (expandAllTasks stages groups).count t := by
  have hkey : exAll (processStages groups [] stages) =
      addTasks [] (expandAllTasks stages groups) :=
    exAll_processStages groups stages []
  constructor
  · constructor
    · rintro ⟨tt, htt⟩
      simp only [toDict] at htt
      cases hps : processStages groups [] stages with
      | error e => rw [hps] at htt; exact Except.noConfusion htt
      | ok p =>
        rw [hps] at hkey
        have hok : addTasks [] (expandAllTasks stages groups) = .ok p.2 :=
          hkey.symm
        have hnd := (addTasks_ok_iff (expandAllTasks stages groups) []
          List.nodup_nil).mp ⟨p.2, hok⟩
        rwa [List.nil_append] at hnd
    · intro hnd
      have hnd2 : (([] : List String) ++ expandAllTasks stages groups).Nodup := by
        rwa [List.nil_append]
      obtain ⟨r, hr⟩ := (addTasks_ok_iff (expandAllTasks stages groups) []
        List.nodup_nil).mpr hnd2
      rw [← hkey] at hr
      cases hps : processStages groups [] stages with
      | error e =>
        rw [hps] at hr
        exact Except.noConfusion hr
      | ok p =>
        refine ⟨p.1, ?_⟩
        simp only [toDict]
        rw [hps]
  · intro e he
    simp only [toDict] at he
    cases hps : processStages groups [] stages with
    | ok p => rw [hps] at he; exact Except.noConfusion he
    | error e' =>
      rw [hps] at he
      cases he
      rw [hps] at hkey
      have herr : addTasks [] (expandAllTasks stages groups) = .error e :=
        hkey.symm
      obtain ⟨t, ht, hc⟩ :=
        addTasks_error_count (expandAllTasks stages groups) [] e herr
      rw [List.nil_append] at hc
      exact ⟨t, ht, hc⟩

/-- A whitespace-free suffix extends the current `str.split()` field. -/
theorem pysplitAux_nospace : ∀ (cs acc : List Char),
    (∀ c ∈ cs, c ≠ ' ') → acc ≠ [] →
    pysplitAux cs acc = [String.mk (acc.reverse ++ cs)] := by
  intro cs
  induction cs with
  | nil =>
    intro acc h hacc
    simp [pysplitAux, hacc]
  | cons c cs ih =>
    intro acc h hacc
    simp only [pysplitAux]
    rw [if_neg (h c (List.mem_cons_self c cs))]
    rw [ih (c :: acc) (fun d hd => h d (List.mem_cons_of_mem c hd)) (by simp)]
    simp [List.reverse_cons, List.append_assoc]

/-- Python `str.split()` leaves a nonempty whitespace-free string whole. -/
theorem pysplit_nospace (s : String) (h1 : s.data ≠ [])
    (h2 : ∀ c ∈ s.data, c ≠ ' ') : pysplit s = [s] := by
  rw [pysplit]
  cases hd : s.data with
  | nil => exact absurd hd h1
  | cons c cs =>
    have hc : c ≠ ' ' := h2 c (hd ▸ List.mem_cons_self c cs)
    simp only [pysplitAux]
    rw [if_neg hc]
    rw [pysplitAux_nospace cs [c]
      (fun d hd2 => h2 d (hd ▸ List.mem_cons_of_mem c hd2)) (by simp)]
    have h3 : ([c].reverse ++ cs) = c :: cs := by simp
    rw [h3, ← hd]

/-- Joining whitespace-free ids with `":"` stays whitespace-free. -/
theorem pyjoin_nospace : ∀ (l : List String),
    (∀ x ∈ l, ∀ c ∈ x.data, c ≠ ' ') →
    ∀ c ∈ (pyjoin ":" l).data, c ≠ ' ' := by
  intro l
  induction l with
  | nil =>
    intro h c hc
    have h0 : (pyjoin ":" ([] : List String)).data = [] := rfl
    rw [h0] at hc
    exact absurd hc (List.not_mem_nil c)
  | cons x xs ih =>
    intro h c hc
    cases xs with
    | nil =>
      simp only [pyjoin] at hc
      exact h x (List.mem_cons_self x []) c hc
    | cons y ys =>
      simp only [pyjoin] at hc
      rw [String.data_append, String.data_append] at hc
      rcases List.mem_append.mp hc with hin | hin
      · rcases List.mem_append.mp hin with hin2 | hin2
        · exact h x (List.mem_cons_self x (y :: ys)) c hin2
        · have hcol : ((":" : String)).data = [':'] := rfl
          rw [hcol, List.mem_singleton] at hin2
          rw [hin2]
          decide
      · exact ih (fun z hz => h z (List.mem_cons_of_mem x hz)) c hin

/-- `str.split()` on the PBS Pro dependency option: the single embedded
space yields exactly the flag `-W` and its whitespace-free argument. -/
theorem pysplit_one_space (r : String) (h1 : r.data ≠ [])
    (h2 : ∀ c ∈ r.data, c ≠ ' ') :
    pysplit ("-W " ++ r) = ["-W", r] := by
  have h0 : ("-W " : String).data = ['-', 'W', ' '] := by decide
  have hd : ("-W " ++ r).data = '-' :: 'W' :: ' ' :: r.data := by
    rw [String.data_append, h0]
    rfl
  rw [pysplit, hd]
  simp only [pysplitAux]
  rw [if_neg (by decide : ¬('-' = ' ')), if_neg (by decide : ¬('W' = ' '))]
  rw [if_true, if_neg (by decide : ¬(['W', '-'] = ([] : List Char)))]
  have hr : pysplitAux r.data [] = [r] := pysplit_nospace r h1 h2
  rw [hr]
  have hmk : String.mk (['W', '-'].reverse) = "-W" := by decide
  rw [hmk]

/-- `get_submission_args` over a scheduler backend whose option table holds
a `depend` entry and a bare `script` entry: the base argv from the supplied
options, then the formatted dependency option split on whitespace, then the
script. -/
theorem schedulerSubmissionArgs_eq (cmd : String)
    (options : List (String × Fragment)) (script : String)
    (opts : List (String × OptVal)) (depend : List String)
    (hdep : depend ≠ []) (dfrag : Fragment)
    (hfd : options.find? (fun kv => kv.1 = "depend") = some ("depend", dfrag))
    (hfs : options.find? (fun kv => kv.1 = "script") = some ("script", ⟨"", ""⟩)) :
    schedulerSubmissionArgs cmd options script opts depend =
      getCommandArgs (some cmd) options opts ++
        (pysplit (dfrag.format (pyjoin ":" depend)) ++
          pysplit ((⟨"", ""⟩ : Fragment).format script)) := by
  simp only [schedulerSubmissionArgs]
  rw [if_pos hdep]
  simp only [getCommandArgs]
  rw [List.flatMap_append, List.flatMap_append]
  simp only [List.flatMap_cons, List.flatMap_nil, List.append_nil]
  rw [hfd, hfs]
  simp only [List.append_assoc]

/-- C9 (amended): with at least one upstream job and whitespace-free ids
and script path, the Slurm backend submits
`sbatch ... --dependency=afterok:<ids> <script>` and the PBS Pro backend
submits `qsub ... -W depend=afterok:<ids> <script>`, the ids joined by `":"`
in both (the `":".join` of `_Scheduler_.get_submission_args`,
`src/woom/job.py` line 567; the spec's `","` for Slurm does not occur). -/
theorem scheduler_dependency_flags (script : String)
    (opts : List (String × OptVal)) (depend : List String)
    (hdep : depend ≠ [])
    (hids : ∀ i ∈ depend, ∀ c ∈ i.data, c ≠ ' ')
    (hs1 : script.data ≠ []) (hs2 : ∀ c ∈ script.data, c ≠ ' ') :
    slurmSubmissionArgs script opts depend =
      getCommandArgs (some "sbatch") slurmSubmitOptions opts ++
        ["--dependency=afterok:" ++ pyjoin ":" depend, script] ∧
    pbsproSubmissionArgs script opts depend =
      getCommandArgs (some "qsub") pbsproSubmitOptions opts ++
        ["-W", "depend=afterok:" ++ pyjoin ":" depend, script] := by
  have hjoin := pyjoin_nospace depend hids
  have hscr : pysplit ((⟨"", ""⟩ : Fragment).format script) = [script] := by
    simp only [Fragment.format]
    rw [String.empty_append, String.append_empty]
    exact pysplit_nospace script hs1 hs2
  constructor
  · rw [slurmSubmissionArgs,
      schedulerSubmissionArgs_eq "sbatch" slurmSubmitOptions script opts depend
        hdep ⟨"--dependency=afterok:", ""⟩ (by decide) (by decide), hscr]
    have hfmt : (⟨"--dependency=afterok:", ""⟩ : Fragment).format
        (pyjoin ":" depend) = "--dependency=afterok:" ++ pyjoin ":" depend := by
      simp only [Fragment.format]
      rw [String.append_empty]
    rw [hfmt]
    have hne : ("--dependency=afterok:" ++ pyjoin ":" depend).data ≠ [] := by
      rw [String.data_append]
      intro h
      have hlen : ("--dependency=afterok:" : String).data.length +
          (pyjoin ":" depend).data.length = 0 := by
        have h2 := congrArg List.length h
        rwa [List.length_append, List.length_nil] at h2
      have hp : 0 < ("--dependency=afterok:" : String).data.length := by decide
      omega
    have hns : ∀ c ∈ ("--dependency=afterok:" ++ pyjoin ":" depend).data,
        c ≠ ' ' := by
      intro c hc
      rw [String.data_append] at hc
      rcases List.mem_append.mp hc with h1 | h1
      · exact (by decide :
          ∀ c ∈ ("--dependency=afterok:" : String).data, c ≠ ' ') c h1
      · exact hjoin c h1
    rw [pysplit_nospace _ hne hns]
    rfl
  · rw [pbsproSubmissionArgs,
      schedulerSubmissionArgs_eq "qsub" pbsproSubmitOptions script opts depend
        hdep ⟨"-W depend=afterok:", ""⟩ (by decide) (by decide), hscr]
    have heq : ("-W depend=afterok:" ++ pyjoin ":" depend) =
        "-W " ++ ("depend=afterok:" ++ pyjoin ":" depend) := by
      apply String.ext
      rw [String.data_append, String.data_append, String.data_append]
      rfl
    have hfmt : (⟨"-W depend=afterok:", ""⟩ : Fragment).format
        (pyjoin ":" depend) =
        "-W " ++ ("depend=afterok:" ++ pyjoin ":" depend) := by
      simp only [Fragment.format]
      rw [String.append_empty]
      exact heq
    rw [hfmt]
    have hne2 : ("depend=afterok:" ++ pyjoin ":" depend).data ≠ [] := by
      rw [String.data_append]
      intro h
      have hlen : ("depend=afterok:" : String).data.length +
          (pyjoin ":" depend).data.length = 0 := by
        have h2 := congrArg List.length h
        rwa [List.length_append, List.length_nil] at h2
      have hp : 0 < ("depend=afterok:" : String).data.length := by decide
      omega
    have hns2 : ∀ c ∈ ("depend=afterok:" ++ pyjoin ":" depend).data,
        c ≠ ' ' := by
      intro c hc
      rw [String.data_append] at hc
      rcases List.mem_append.mp hc with h1 | h1
      · exact (by decide :
          ∀ c ∈ ("depend=afterok:" : String).data, c ≠ ' ') c h1
      · exact hjoin c h1
    rw [pysplit_one_space _ hne2 hns2]
    rfl

/-- C9 counterexample to the spec's `","` for Slurm: with upstream jobs
`1` and `2`, the Slurm argv carries `--dependency=afterok:1:2` (ids joined
by `":"`), never `--dependency=afterok:1,2`; PBS Pro splits its option on
the embedded space into `-W` and `depend=afterok:1:2`. -/
theorem slurm_comma_join_counterexample :
    "--dependency=afterok:1,2" ∉ slurmSubmissionArgs "job.sh" [] ["1", "2"] ∧
    slurmSubmissionArgs "job.sh" [] ["1", "2"] =
      ["sbatch", "--dependency=afterok:1:2", "job.sh"] ∧
    pbsproSubmissionArgs "job.sh" [] ["1", "2"] =
      ["qsub", "-W", "depend=afterok:1:2", "job.sh"] := by decide

/-- C9 witness: the amended dependency-flag theorem applied to the script
`job.sh` and the upstream jobs `1`, `2`; both hypotheses hold and both argv
equalities follow. -/
theorem scheduler_dependency_flags_witness :
    ((["1", "2"] : List String) ≠ [] ∧
      (∀ i ∈ (["1", "2"] : List String), ∀ c ∈ i.data, c ≠ ' ') ∧
      ("job.sh" : String).data ≠ [] ∧
      (∀ c ∈ ("job.sh" : String).data, c ≠ ' ')) ∧
    (slurmSubmissionArgs "job.sh" [] ["1", "2"] =
      getCommandArgs (some "sbatch") slurmSubmitOptions [] ++
        ["--dependency=afterok:" ++ pyjoin ":" ["1", "2"], "job.sh"] ∧
    pbsproSubmissionArgs "job.sh" [] ["1", "2"] =
      getCommandArgs (some "qsub") pbsproSubmitOptions [] ++
        ["-W", "depend=afterok:" ++ pyjoin ":" ["1", "2"], "job.sh"]) :=
  ⟨⟨by decide, by decide, by decide, by decide⟩,
   scheduler_dependency_flags "job.sh" [] ["1", "2"]
     (by decide) (by decide) (by decide) (by decide)⟩

/-- C8 witness: the duplicate task `a` in one stage line is reported with
its name, and the expanded graph indeed lists `a` twice. -/
theorem tasktree_duplicate_detection_witness :
    toDict [("cycles", [("s1", "a,a")])] [] =
      Except.error "Duplicate tasks not allowed: a" ∧
    ∃ t, "Duplicate tasks not allowed: a" = "Duplicate tasks not allowed: " ++ t ∧
      2 ≤ (expandAllTasks [("cycles", [("s1", "a,a")])] []).count t :=
  ⟨rfl, (tasktree_duplicate_detection [("cycles", [("s1", "a,a")])] []).2
    "Duplicate tasks not allowed: a" rfl⟩

end Woom
